import Mathlib

/-!
Verification development for the OFAC name-screening engine of
`src/backend/nlp_utils.py`: name normalization, token blocking index,
composite fuzzy matching and result deduplication.

The Python code is shallowly embedded:

* strings are Lean `String`s (lists of `Char`); the Unicode operations
  `str.upper` and `unicodedata.normalize("NFKD", ·)` are modelled by
  explicit character tables covering ASCII plus the precomposed Latin-1
  letters this pipeline meets (all other characters are left fixed, and
  are erased to spaces by the alphabet filter anyway);
* Python `set`s are modelled as duplicate-free lists; iteration order of
  a Python `set` is unspecified, so every place the code iterates a set
  this model fixes one concrete order (`List.dedup` order for token
  sets, insertion order for candidate pools);
* Python `float` arithmetic is idealized as exact rational (`ℚ`)
  arithmetic, and `round(x, 1)` as round-half-up to one decimal;
* the two `rapidfuzz` string scorers `fuzz.WRatio` and
  `fuzz.token_set_ratio` are external library code, not part of this
  repository; they are treated as opaque parameters `s1fn s2fn : String
  → String → ℚ`, with their documented range `[0, 100]` taken as a
  hypothesis where a claim needs it.
-/

namespace OfacSpec

/-- Combining diacritical marks (U+0300–U+036F): the characters removed by
`_strip_accents` after NFKD decomposition (`unicodedata.combining(ch)` is
nonzero exactly for combining marks; the marks produced by the
decomposition table below all lie in this block). -/
def isCombining (c : Char) : Bool := 0x300 ≤ c.toNat && c.toNat ≤ 0x36F

/-- Uppercase mapping of `str.upper()` beyond ASCII, restricted to the
precomposed Latin-1 letters: each accented lowercase letter maps to its
accented uppercase form. -/
def upperTable : List (Char × Char) :=
  [('à', 'À'), ('á', 'Á'), ('â', 'Â'), ('ã', 'Ã'), ('ä', 'Ä'), ('å', 'Å'),
   ('ç', 'Ç'), ('è', 'È'), ('é', 'É'), ('ê', 'Ê'), ('ë', 'Ë'),
   ('ì', 'Ì'), ('í', 'Í'), ('î', 'Î'), ('ï', 'Ï'), ('ñ', 'Ñ'),
   ('ò', 'Ò'), ('ó', 'Ó'), ('ô', 'Ô'), ('õ', 'Õ'), ('ö', 'Ö'),
   ('ù', 'Ù'), ('ú', 'Ú'), ('û', 'Û'), ('ü', 'Ü'), ('ý', 'Ý')]

/-- Model of Python `str.upper()` on a single character: ASCII `a`–`z` is
shifted to `A`–`Z`, precomposed accented Latin-1 letters are uppercased
through `upperTable`, every other character is left unchanged. -/
def pyUpperChar (c : Char) : Char :=
  if 97 ≤ c.toNat ∧ c.toNat ≤ 122 then Char.ofNat (c.toNat - 32)
  else (upperTable.lookup c).getD c

/-- NFKD decompositions (`unicodedata.normalize("NFKD", ·)`) of the
precomposed Latin-1 letters: base letter followed by a combining mark
(U+0300 grave, U+0301 acute, U+0302 circumflex, U+0303 tilde, U+0308
diaeresis, U+030A ring, U+0327 cedilla). NFKD output is fully decomposed,
so no decomposition ever contains a precomposed letter such as `Ñ`.
Characters outside the table decompose to themselves. -/
def nfkdTable : List (Char × List Char) :=
  [('À', ['A', '\u0300']), ('Á', ['A', '\u0301']), ('Â', ['A', '\u0302']),
   ('Ã', ['A', '\u0303']), ('Ä', ['A', '\u0308']), ('Å', ['A', '\u030A']),
   ('Ç', ['C', '\u0327']), ('È', ['E', '\u0300']), ('É', ['E', '\u0301']),
   ('Ê', ['E', '\u0302']), ('Ë', ['E', '\u0308']), ('Ì', ['I', '\u0300']),
   ('Í', ['I', '\u0301']), ('Î', ['I', '\u0302']), ('Ï', ['I', '\u0308']),
   ('Ñ', ['N', '\u0303']), ('Ò', ['O', '\u0300']), ('Ó', ['O', '\u0301']),
   ('Ô', ['O', '\u0302']), ('Õ', ['O', '\u0303']), ('Ö', ['O', '\u0308']),
   ('Ù', ['U', '\u0300']), ('Ú', ['U', '\u0301']), ('Û', ['U', '\u0302']),
   ('Ü', ['U', '\u0308']), ('Ý', ['Y', '\u0301']),
   ('à', ['a', '\u0300']), ('á', ['a', '\u0301']), ('â', ['a', '\u0302']),
   ('ã', ['a', '\u0303']), ('ä', ['a', '\u0308']), ('å', ['a', '\u030A']),
   ('ç', ['c', '\u0327']), ('è', ['e', '\u0300']), ('é', ['e', '\u0301']),
   ('ê', ['e', '\u0302']), ('ë', ['e', '\u0308']), ('ì', ['i', '\u0300']),
   ('í', ['i', '\u0301']), ('î', ['i', '\u0302']), ('ï', ['i', '\u0308']),
   ('ñ', ['n', '\u0303']), ('ò', ['o', '\u0300']), ('ó', ['o', '\u0301']),
   ('ô', ['o', '\u0302']), ('õ', ['o', '\u0303']), ('ö', ['o', '\u0308']),
   ('ù', ['u', '\u0300']), ('ú', ['u', '\u0301']), ('û', ['u', '\u0302']),
   ('ü', ['u', '\u0308']), ('ý', ['y', '\u0301'])]

/-- NFKD decomposition of a single character. -/
def nfkdChar (c : Char) : List Char := (nfkdTable.lookup c).getD [c]

/-- Model of `_strip_accents` (nlp_utils.py lines 14–17): NFKD-decompose,
then drop combining marks. -/
def stripAccents (l : List Char) : List Char :=
  (l.flatMap nfkdChar).filter (fun c => !isCombining c)

/-- One character of `re.sub(r"[^A-ZÑ ]", " ", s)` (nlp_utils.py line 22):
keep `A`–`Z` (codes 65–90) and `Ñ`; everything else (the space included,
which is replaced by itself) becomes a space. -/
def keepChar (c : Char) : Char :=
  if (65 ≤ c.toNat ∧ c.toNat ≤ 90) ∨ c = 'Ñ' then c else ' '

/-- Split a character list at every space, keeping empty pieces — the
semantics of Python `s.split(" ")`. -/
def splitSp : List Char → List (List Char)
  | [] => [[]]
  | c :: rest =>
    if c = ' ' then [] :: splitSp rest
    else
      match splitSp rest with
      | [] => [[c]]
      | w :: ws => (c :: w) :: ws

/-- Join word pieces with single spaces. -/
def unwords : List (List Char) → List Char
  | [] => []
  | [w] => w
  | w :: ws => w ++ ' ' :: unwords ws

/-- Model of `re.sub(r"\s+", " ", s).strip()` (nlp_utils.py line 23) on a
string whose only whitespace is the space character: collapse runs of
spaces and trim both ends, i.e. rejoin the nonempty words. -/
def collapseSpaces (l : List Char) : List Char :=
  unwords ((splitSp l).filter (fun w => w ≠ []))

/-- Model of `normalize_name` (nlp_utils.py lines 19–24): uppercase, strip
accents, replace everything outside `[A-ZÑ ]` by a space, collapse
whitespace, trim. -/
def normalize_name (s : String) : String :=
  ⟨collapseSpaces ((stripAccents (s.data.map pyUpperChar)).map keepChar)⟩

/-- Model of `tokenize_name` (nlp_utils.py lines 26–29): split the
normalized string on single spaces and keep only tokens of length ≥ 2. -/
def tokenize_name (s : String) : List String :=
  ((splitSp s.data).map (fun w => String.mk w)).filter (fun t => 2 ≤ t.length)

/-- The `_ENTITY_STOPWORDS` lexicon (nlp_utils.py lines 8–12). -/
def _ENTITY_STOPWORDS : List String :=
  ["COMPANY", "CO", "CORP", "CORPORATION", "INC", "INCORPORATED", "LLC", "LTD",
   "LIMITED", "S", "A", "SA", "SAS", "S.A", "S.A.", "S A", "AG", "GMBH", "BV",
   "NV", "SPA", "SRL", "SRO", "BANK", "BANCO", "TRUST", "HOLDINGS", "HOLDING",
   "GROUP", "GRUPO", "FUND", "FOUNDATION"]

/-- Model of `looks_like_entity` (nlp_utils.py lines 31–36): true when the
token list is nonempty and at least one token is an organizational
stopword. -/
def looks_like_entity (tokens : List String) : Bool :=
  if tokens = [] then false
  else decide (1 ≤ tokens.countP (fun t => decide (t ∈ _ENTITY_STOPWORDS)))

/-- A reference entry: the fields of the source's entry dict that the
matching engine reads (`e.get("name")`) or stores (`entry`). The `uid`
field keeps distinct entries distinguishable. -/
structure OfacEntry where
  uid : String
  name : String
deriving DecidableEq

/-- One element of the index's `items` list (nlp_utils.py lines 67–73):
normalized name, token list, token set (`set(toks)`, a duplicate-free
list here), entity flag and the originating entry. -/
structure IndexedItem where
  norm : String
  tokens : List String
  token_set : List String
  is_entity : Bool
  entry : OfacEntry
deriving DecidableEq

/-- The index built by `build_ofac_name_index` (nlp_utils.py line 84):
`items`, the inverted token index `token_to_ids` (an insertion-ordered
association list, Python dict), `names`, and the canonical-name→entry
map `map` (first occurrence wins). Posting sets are insertion-ordered
duplicate-free lists. -/
structure OfacIndex where
  items : List IndexedItem
  token_to_ids : List (String × List Nat)
  names : List String
  map : List (String × OfacEntry)
deriving DecidableEq

/-- Python set intersection `A.intersection(B)` on duplicate-free lists,
keeping the iteration order of `A`. -/
def pyInter {α : Type} [DecidableEq α] (A B : List α) : List α :=
  A.filter (fun x => x ∈ B)

/-- Python set union `A.union(B)` on duplicate-free lists: the elements of
`A` followed by the elements of `B` not already present. -/
def pyUnion {α : Type} [DecidableEq α] (A B : List α) : List α :=
  A ++ B.filter (fun x => x ∉ A)

/-- The update `token_to_ids.setdefault(t, set()).add(idx)` (nlp_utils.py
line 82) on the association-list model of the dict. -/
def addPosting (m : List (String × List Nat)) (t : String) (idx : Nat) :
    List (String × List Nat) :=
  match m with
  | [] => [(t, [idx])]
  | (k, s) :: rest =>
    if k = t then (k, if idx ∈ s then s else s ++ [idx]) :: rest
    else (k, s) :: addPosting rest t idx

/-- One loop iteration of `build_ofac_name_index` (nlp_utils.py lines
54–82): skip entries whose normalized name is empty or tokenizes to
nothing; otherwise append the indexed item, register the name, insert the
canonical→entry mapping if absent (`mp.setdefault`), and add the item id
to the posting list of every distinct token of length ≥ 3. -/
def buildStep (st : OfacIndex) (e : OfacEntry) : OfacIndex :=
  let norm := normalize_name e.name
  if norm = "" then st
  else
    let toks := tokenize_name norm
    if toks = [] then st
    else
      let is_ent := looks_like_entity toks
      let idx := st.items.length
      let item : IndexedItem := ⟨norm, toks, toks.dedup, is_ent, e⟩
      { items := st.items ++ [item]
        token_to_ids :=
          (toks.dedup.filter (fun t => decide (3 ≤ t.length))).foldl
            (fun m t => addPosting m t idx) st.token_to_ids
        names := st.names ++ [norm]
        map := if (st.map.lookup norm).isSome then st.map
               else st.map ++ [(norm, e)] }

/-- Model of `build_ofac_name_index` (nlp_utils.py lines 41–84). -/
def build_ofac_name_index (entries : List OfacEntry) : OfacIndex :=
  entries.foldl buildStep ⟨[], [], [], []⟩

/-- The posting lists collected by `_candidate_ids_for_query` (nlp_utils.py
lines 95–102): for each distinct query token of length ≥ 3, the posting
set found in the inverted index, when present and nonempty. -/
def postingsFor (q_tokens : List String) (index : OfacIndex) : List (List Nat) :=
  q_tokens.dedup.filterMap (fun t =>
    if t.length < 3 then none
    else
      match index.token_to_ids.lookup t with
      | none => none
      | some ids => if ids = [] then none else some ids)

/-- The pool-refinement loop of `_candidate_ids_for_query` (nlp_utils.py
lines 112–121): intersect with each further posting set, falling back to
the union when the intersection dies, and stop early (keeping the updated
pool) once the pool exceeds `max_pool`. -/
def poolLoop (max_pool : Nat) : List Nat → List (List Nat) → List Nat
  | pool, [] => pool
  | pool, ids :: rest =>
    let inter := pyInter pool ids
    let pool2 := if inter = [] then pyUnion pool ids else inter
    if max_pool < pool2.length then pool2 else poolLoop max_pool pool2 rest

/-- Model of `_candidate_ids_for_query` (nlp_utils.py lines 89–124): sort
the posting lists by increasing size (stably, rarest token first), then
run the intersection/union refinement loop from the rarest posting.
`postings.sort(key=len)` is a stable sort; a stable sort by a total
preorder is a unique function of its input, so the structurally recursive
`List.insertionSort` (stable) computes it. -/
def _candidate_ids_for_query (q_tokens : List String) (index : OfacIndex)
    (max_pool : Nat := 5000) : List Nat :=
  match List.insertionSort (fun a b => a.length ≤ b.length)
      (postingsFor q_tokens index) with
  | [] => []
  | p :: rest => poolLoop max_pool p rest

/-- The Jaccard signal `j` (nlp_utils.py lines 180 and 235): overlap over
union of the two token sets, scaled to 0–100, with the denominator
clamped to at least 1. -/
def jaccard100 (qset cset : List String) : ℚ :=
  100 * ((pyInter qset cset).length : ℚ) / ((max 1 (pyUnion qset cset).length : Nat) : ℚ)

/-- The composite score of one candidate (nlp_utils.py lines 176–190 and
233–241): `0.55·s1 + 0.30·s2 + 0.15·j`, minus 8 when a person-looking
query meets an entity-looking candidate, plus 3 when the query token set
is contained in the candidate's. `s1fn`/`s2fn` stand for the external
`fuzz.WRatio` and `fuzz.token_set_ratio`. -/
def rawScore (s1fn s2fn : String → String → ℚ) (q : String) (qset : List String)
    (qEnt : Bool) (it : IndexedItem) : ℚ :=
  let s1 := s1fn q it.norm
  let s2 := s2fn q it.norm
  let j := jaccard100 qset it.token_set
  let base := 55 / 100 * s1 + 30 / 100 * s2 + 15 / 100 * j
  let adj := if !qEnt && it.is_entity then base - 8 else base
  if qset.all (fun t => t ∈ it.token_set) then adj + 3 else adj

/-- Python `round(x, 1)`, idealized as round-half-up to one decimal. -/
def round1 (x : ℚ) : ℚ := (⌊10 * x + 1 / 2⌋ : ℚ) / 10

/-- Out-of-range placeholder for `items[cid]`; its empty token set can
never pass the two-token overlap gate, so it is never returned. -/
def defaultItem : IndexedItem := ⟨"", [], [], false, ⟨"", ""⟩⟩

/-- One iteration of the best-candidate loop of `fuzzy_match` (nlp_utils.py
lines 160–193): skip the candidate when fewer than 2 tokens are shared
(`continue`), also re-checking the redundant two-token condition, else
keep the strictly higher composite score. -/
def bestStep (s1fn s2fn : String → String → ℚ) (q : String) (qset : List String)
    (qEnt : Bool) (index : OfacIndex) (best : Option (ℚ × String × OfacEntry))
    (cid : Nat) : Option (ℚ × String × OfacEntry) :=
  let it := index.items.getD cid defaultItem
  let overlap := (pyInter qset it.token_set).length
  if overlap < 2 then best
  else if qset.length = 2 ∧ overlap < 2 then best
  else
    let score := rawScore s1fn s2fn q qset qEnt it
    match best with
    | none => some (score, it.norm, it.entry)
    | some b => if b.1 < score then some (score, it.norm, it.entry) else best

/-- The best-candidate scan of `fuzzy_match` (nlp_utils.py lines 156–193):
fold `bestStep` over the candidate ids starting from `best = None`. -/
def bestFold (s1fn s2fn : String → String → ℚ) (q : String) (qset : List String)
    (qEnt : Bool) (index : OfacIndex) (cand_ids : List Nat) :
    Option (ℚ × String × OfacEntry) :=
  cand_ids.foldl (bestStep s1fn s2fn q qset qEnt index) none

/-- Model of `fuzzy_match` (nlp_utils.py lines 126–202): exact-canonical
short circuit, single-token rejection, blocking, best-candidate scan, and
the final threshold check returning the rounded score. -/
def fuzzy_match (s1fn s2fn : String → String → ℚ) (name : String)
    (index : OfacIndex) (min_score : ℚ := 92) : Option (String × ℚ × OfacEntry) :=
  let q := normalize_name name
  if q = "" then none
  else
    match index.map.lookup q with
    | some e => some (q, 100, e)
    | none =>
      let q_tokens := tokenize_name q
      if q_tokens.length < 2 then none
      else
        let q_is_entity := looks_like_entity q_tokens
        let cand_ids := _candidate_ids_for_query q_tokens index 5000
        if cand_ids = [] then none
        else
          match bestFold s1fn s2fn q q_tokens.dedup q_is_entity index cand_ids with
          | none => none
          | some (score, nm, e) =>
            if min_score ≤ score then some (nm, round1 score, e) else none

/-- One iteration of the scoring loop of `fuzzy_top_matches` (nlp_utils.py
lines 223–244): `None` when the candidate fails the overlap gate (also
re-checking the redundant two-token condition) or scores below
`min_score`, else the scored triple appended to `scored`. -/
def scoredBody (s1fn s2fn : String → String → ℚ) (q : String) (qset : List String)
    (qEnt : Bool) (index : OfacIndex) (min_score : ℚ) (cid : Nat) :
    Option (String × ℚ × OfacEntry) :=
  let it := index.items.getD cid defaultItem
  let overlap := (pyInter qset it.token_set).length
  if overlap < 2 then none
  else if qset.length = 2 ∧ overlap < 2 then none
  else
    let score := rawScore s1fn s2fn q qset qEnt it
    if min_score ≤ score then some (it.norm, round1 score, it.entry) else none

/-- The scored-candidate list of `fuzzy_top_matches` (nlp_utils.py lines
221–244): every candidate id surviving the overlap gate whose composite
score reaches `min_score`, as `(norm, round(score, 1), entry)`. -/
def scoredFor (s1fn s2fn : String → String → ℚ) (q : String) (qset : List String)
    (qEnt : Bool) (index : OfacIndex) (cand_ids : List Nat) (min_score : ℚ) :
    List (String × ℚ × OfacEntry) :=
  cand_ids.filterMap (scoredBody s1fn s2fn q qset qEnt index min_score)

/-- The sort order `key=lambda x: (-x[1], x[0])` (nlp_utils.py line 246):
descending score, ties broken by ascending normalized name. -/
def matchRel (a b : String × ℚ × OfacEntry) : Prop :=
  b.2.1 < a.2.1 ∨ (a.2.1 = b.2.1 ∧ a.1 ≤ b.1)

instance matchRel.decidable : DecidableRel matchRel := fun a b => by
  unfold matchRel
  infer_instance

/-- Model of `fuzzy_top_matches` (nlp_utils.py lines 204–249): reject
empty or single-token queries, block, score every surviving candidate,
sort by descending score then ascending name (`scored.sort` is stable, so
the stable `List.insertionSort` computes it), and truncate to
`max(1, top_k)`. -/
def fuzzy_top_matches (s1fn s2fn : String → String → ℚ) (name : String)
    (index : OfacIndex) (top_k : Nat := 10) (min_score : ℚ := 80) :
    List (String × ℚ × OfacEntry) :=
  let q := normalize_name name
  let q_tokens := tokenize_name q
  if q = "" ∨ q_tokens.length < 2 then []
  else
    let q_is_entity := looks_like_entity q_tokens
    let q_set := q_tokens.dedup
    let cand_ids := _candidate_ids_for_query q_tokens index 5000
    if cand_ids = [] then []
    else
      (List.insertionSort matchRel
        (scoredFor s1fn s2fn q q_set q_is_entity index cand_ids min_score)).take
        (max 1 top_k)

/-- Model of `core_person_key` (nlp_utils.py lines 254–263): the first two
tokens joined by a bar, or the input unchanged when there are fewer than
two tokens. -/
def core_person_key (norm_name : String) : String :=
  match tokenize_name (normalize_name norm_name) with
  | t0 :: t1 :: _ => t0 ++ "|" ++ t1
  | _ => norm_name

/-- The loop of `dedupe_by_core` (nlp_utils.py lines 270–280), with the
`seen` set and `out` accumulator explicit: keep the first match per core
key and break once `out` reaches `cap = max(1, top_k)` elements. -/
def dedupeLoop (cap : Nat) : List String → List (String × ℚ × OfacEntry) →
    List (String × ℚ × OfacEntry) → List (String × ℚ × OfacEntry)
  | _, out, [] => out
  | seen, out, m :: rest =>
    let key := core_person_key m.1
    if key ∈ seen then dedupeLoop cap seen out rest
    else
      let out2 := out ++ [m]
      if cap ≤ out2.length then out2
      else dedupeLoop cap (seen ++ [key]) out2 rest

/-- Model of `dedupe_by_core` (nlp_utils.py lines 265–280). -/
def dedupe_by_core (ranked : List (String × ℚ × OfacEntry)) (top_k : Nat := 10) :
    List (String × ℚ × OfacEntry) :=
  dedupeLoop (max 1 top_k) [] [] ranked

/-- Modelled from the spec (§8, blocking soundness): the brute-force full
scan `fuzzy_top_matches` is compared against — "a brute-force full scan
using the same scoring rule": apply the same overlap gate, composite
score and threshold to every indexed item, with no blocking and no
truncation. -/
def bruteForceScan (s1fn s2fn : String → String → ℚ) (name : String)
    (index : OfacIndex) (min_score : ℚ) : List (String × ℚ × OfacEntry) :=
  let q := normalize_name name
  let q_tokens := tokenize_name q
  if q = "" ∨ q_tokens.length < 2 then []
  else
    let q_is_entity := looks_like_entity q_tokens
    let q_set := q_tokens.dedup
    index.items.filterMap (fun it =>
      let overlap := (pyInter q_set it.token_set).length
      if overlap < 2 then none
      else
        let score := rawScore s1fn s2fn q q_set q_is_entity it
        if min_score ≤ score then some (it.norm, round1 score, it.entry) else none)

/-! Support lemmas: association-list lookup and the split/join structure
of the whitespace collapse. -/

theorem lookup_eq_none_of_keys {α β : Type} [DecidableEq α] (tbl : List (α × β))
    (c : α) (h : ∀ p ∈ tbl, p.1 ≠ c) : tbl.lookup c = none := by
  induction tbl with
  | nil => rfl
  | cons p tl ih =>
    obtain ⟨k, v⟩ := p
    have hk : k ≠ c := h (k, v) (List.mem_cons_self _ _)
    have hck : (c == k) = false := beq_eq_false_iff_ne.mpr (fun hh => hk hh.symm)
    simp only [List.lookup_cons, hck]
    exact ih (fun q hq => h q (List.mem_cons_of_mem _ hq))

theorem lookup_mem {α β : Type} [DecidableEq α] (tbl : List (α × β)) (c : α)
    (v : β) (h : tbl.lookup c = some v) : (c, v) ∈ tbl := by
  induction tbl with
  | nil => simp [List.lookup] at h
  | cons p tl ih =>
    obtain ⟨k, w⟩ := p
    simp only [List.lookup_cons] at h
    by_cases hk : k = c
    · subst hk
      simp only [beq_self_eq_true] at h
      simp at h
      simp [h]
    · have hck : (c == k) = false := beq_eq_false_iff_ne.mpr (fun hh => hk hh.symm)
      rw [hck] at h
      exact List.mem_cons_of_mem _ (ih h)

theorem splitSp_ne_nil (l : List Char) : splitSp l ≠ [] := by
  induction l with
  | nil => simp [splitSp]
  | cons c rest ih =>
    simp only [splitSp]
    split
    · simp
    · split
      · simp
      · simp

theorem no_space_of_mem_splitSp {l : List Char} {w : List Char}
    (hw : w ∈ splitSp l) : ' ' ∉ w := by
  induction l generalizing w with
  | nil =>
    simp [splitSp] at hw
    simp [hw]
  | cons c rest ih =>
    simp only [splitSp] at hw
    by_cases hc : c = ' '
    · rw [if_pos hc] at hw
      rcases List.mem_cons.mp hw with h | h
      · simp [h]
      · exact ih h
    · rw [if_neg hc] at hw
      rcases he : splitSp rest with _ | ⟨v, vs⟩
      · exact absurd he (splitSp_ne_nil rest)
      · rw [he] at hw
        rcases List.mem_cons.mp hw with h | h
        · subst h
          intro hmem
          rcases List.mem_cons.mp hmem with h | h
          · exact hc h.symm
          · exact ih (he ▸ List.mem_cons_self v vs) h
        · exact ih (he ▸ List.mem_cons_of_mem v h)

theorem mem_of_mem_splitSp {l w : List Char} {c : Char}
    (hw : w ∈ splitSp l) (hc : c ∈ w) : c ∈ l := by
  induction l generalizing w with
  | nil =>
    simp [splitSp] at hw
    subst hw
    simp at hc
  | cons d rest ih =>
    simp only [splitSp] at hw
    by_cases hd : d = ' '
    · rw [if_pos hd] at hw
      rcases List.mem_cons.mp hw with h | h
      · subst h; simp at hc
      · exact List.mem_cons_of_mem _ (ih h hc)
    · rw [if_neg hd] at hw
      rcases he : splitSp rest with _ | ⟨v, vs⟩
      · exact absurd he (splitSp_ne_nil rest)
      · rw [he] at hw
        rcases List.mem_cons.mp hw with h | h
        · subst h
          rcases List.mem_cons.mp hc with h | h
          · simp [h]
          · exact List.mem_cons_of_mem _ (ih (he ▸ List.mem_cons_self v vs) h)
        · exact List.mem_cons_of_mem _ (ih (he ▸ List.mem_cons_of_mem v h) hc)

theorem splitSp_no_space {w : List Char} (hw : ' ' ∉ w) : splitSp w = [w] := by
  induction w with
  | nil => rfl
  | cons c rest ih =>
    have hc : c ≠ ' ' := fun h => hw (h ▸ List.mem_cons_self c rest)
    have hrest : ' ' ∉ rest := fun h => hw (List.mem_cons_of_mem c h)
    simp only [splitSp, if_neg hc, ih hrest]

theorem splitSp_append_space {w l : List Char} (hw : ' ' ∉ w) :
    splitSp (w ++ ' ' :: l) = w :: splitSp l := by
  induction w with
  | nil => simp [splitSp]
  | cons c rest ih =>
    have hc : c ≠ ' ' := fun h => hw (h ▸ List.mem_cons_self c rest)
    have hrest : ' ' ∉ rest := fun h => hw (List.mem_cons_of_mem c h)
    rw [List.cons_append]
    show splitSp (c :: (rest ++ ' ' :: l)) = (c :: rest) :: splitSp l
    simp only [splitSp, if_neg hc]
    rw [ih hrest]

/-- Words of the canonical form: nonempty, space-free. -/
def goodWords (ws : List (List Char)) : Prop :=
  ∀ w ∈ ws, w ≠ [] ∧ ' ' ∉ w

theorem goodWords_of_collapse (l : List Char) :
    goodWords ((splitSp l).filter (fun w => w ≠ [])) := by
  intro w hw
  rw [List.mem_filter] at hw
  exact ⟨by simpa using hw.2, no_space_of_mem_splitSp hw.1⟩

theorem splitSp_unwords {ws : List (List Char)} (h : goodWords ws) :
    (splitSp (unwords ws)).filter (fun w => w ≠ []) = ws := by
  induction ws with
  | nil => rfl
  | cons w ws ih =>
    rcases ws with _ | ⟨v, vs⟩
    · have hw := h w (List.mem_cons_self _ _)
      simp only [unwords, splitSp_no_space hw.2, List.filter_cons]
      rw [if_pos (by simpa using hw.1)]
      rfl
    · have hw := h w (List.mem_cons_self _ _)
      have hrest : goodWords (v :: vs) := fun u hu => h u (List.mem_cons_of_mem _ hu)
      show (splitSp (w ++ ' ' :: unwords (v :: vs))).filter (fun w => w ≠ []) = _
      rw [splitSp_append_space hw.2, List.filter_cons, if_pos (by simpa using hw.1)]
      rw [ih hrest]

theorem collapseSpaces_unwords {ws : List (List Char)} (h : goodWords ws) :
    collapseSpaces (unwords ws) = unwords ws := by
  unfold collapseSpaces
  rw [splitSp_unwords h]

theorem mem_unwords {ws : List (List Char)} {c : Char} (hc : c ∈ unwords ws) :
    c = ' ' ∨ ∃ w ∈ ws, c ∈ w := by
  induction ws with
  | nil => simp [unwords] at hc
  | cons w ws ih =>
    rcases ws with _ | ⟨v, vs⟩
    · exact Or.inr ⟨w, List.mem_cons_self _ _, hc⟩
    · replace hc : c ∈ w ++ ' ' :: unwords (v :: vs) := hc
      rw [List.mem_append] at hc
      rcases hc with h | h
      · exact Or.inr ⟨w, List.mem_cons_self _ _, h⟩
      · rcases List.mem_cons.mp h with h | h
        · exact Or.inl h
        · rcases ih h with h | ⟨u, hu, hcu⟩
          · exact Or.inl h
          · exact Or.inr ⟨u, List.mem_cons_of_mem _ hu, hcu⟩

/-! Character-class lemmas for the normalizer. -/

/-- The canonical alphabet: uppercase `A`–`Z` (codes 65–90) or the space. -/
def charClass (c : Char) : Prop := (65 ≤ c.toNat ∧ c.toNat ≤ 90) ∨ c = ' '

theorem nfkd_no_enye (c d : Char) (h : d ∈ nfkdChar c) : d ≠ 'Ñ' := by
  unfold nfkdChar at h
  rcases he : nfkdTable.lookup c with _ | v
  · rw [he] at h
    simp at h
    subst h
    intro hc
    subst hc
    simp [nfkdTable, List.lookup] at he
  · rw [he] at h
    simp at h
    have hmem := lookup_mem _ _ _ he
    have hall : ∀ p ∈ nfkdTable, 'Ñ' ∉ p.2 := by decide
    intro hd
    exact hall _ hmem (hd ▸ h)

theorem charClass_keepChar {d : Char} (hd : d ≠ 'Ñ') : charClass (keepChar d) := by
  unfold keepChar
  split
  · rename_i hsplit
    rcases hsplit with h | h
    · exact Or.inl h
    · exact absurd h hd
  · exact Or.inr rfl

theorem mem_stripAccents_ne_enye {l : List Char} {d : Char}
    (h : d ∈ stripAccents l) : d ≠ 'Ñ' := by
  unfold stripAccents at h
  have h2 := List.mem_of_mem_filter h
  rw [List.mem_flatMap] at h2
  obtain ⟨c, _, hdc⟩ := h2
  exact nfkd_no_enye c d hdc

theorem charClass_of_mem_normalize (s : String) :
    ∀ c ∈ (normalize_name s).data, charClass c := by
  intro c hc
  have hc2 : c ∈ collapseSpaces ((stripAccents (s.data.map pyUpperChar)).map keepChar) := hc
  unfold collapseSpaces at hc2
  rcases mem_unwords hc2 with h | ⟨w, hw, hcw⟩
  · exact Or.inr h
  · rw [List.mem_filter] at hw
    have hmem := mem_of_mem_splitSp hw.1 hcw
    rw [List.mem_map] at hmem
    obtain ⟨d, hd, hdc⟩ := hmem
    exact hdc ▸ charClass_keepChar (mem_stripAccents_ne_enye hd)

/-! Fixed points of the normalizer stages on the canonical alphabet. -/

theorem pyUpperChar_fixed {c : Char} (h : charClass c) : pyUpperChar c = c := by
  have hle : c.toNat ≤ 90 := by
    rcases h with ⟨_, h2⟩ | h
    · exact h2
    · subst h; decide
  unfold pyUpperChar
  rw [if_neg (by omega)]
  rw [lookup_eq_none_of_keys]
  · rfl
  · intro p hp
    have : 223 < p.1.toNat := by revert hp; revert p; decide
    intro hpc
    rw [hpc] at this
    omega

theorem nfkdChar_fixed {c : Char} (h : charClass c) : nfkdChar c = [c] := by
  have hle : c.toNat ≤ 90 := by
    rcases h with ⟨_, h2⟩ | h
    · exact h2
    · subst h; decide
  unfold nfkdChar
  rw [lookup_eq_none_of_keys]
  · rfl
  · intro p hp
    have : 191 < p.1.toNat := by revert hp; revert p; decide
    intro hpc
    rw [hpc] at this
    omega

theorem isCombining_false {c : Char} (h : charClass c) : isCombining c = false := by
  have hle : c.toNat ≤ 90 := by
    rcases h with ⟨_, h2⟩ | h
    · exact h2
    · subst h; decide
  simp only [isCombining]
  rw [Bool.and_eq_false_iff]
  left
  simp
  omega

theorem keepChar_fixed {c : Char} (h : charClass c) : keepChar c = c := by
  unfold keepChar
  rcases h with h | h
  · rw [if_pos (Or.inl h)]
  · subst h
    split <;> rfl

theorem stripAccents_fixed {l : List Char} (h : ∀ c ∈ l, charClass c) :
    stripAccents l = l := by
  induction l with
  | nil => rfl
  | cons c t ih =>
    have hc := h c (List.mem_cons_self _ _)
    have ht : ∀ d ∈ t, charClass d := fun d hd => h d (List.mem_cons_of_mem _ hd)
    unfold stripAccents
    rw [List.flatMap_cons, List.filter_append, nfkdChar_fixed hc]
    have h1 : List.filter (fun c => !isCombining c) [c] = [c] := by
      simp [List.filter, isCombining_false hc]
    rw [h1]
    have h2 := ih ht
    unfold stripAccents at h2
    rw [h2]
    rfl

theorem normalize_fixed_of_class {l : List Char}
    (hclass : ∀ c ∈ l, charClass c) (hgood : collapseSpaces l = l) :
    normalize_name ⟨l⟩ = ⟨l⟩ := by
  unfold normalize_name
  have h1 : l.map pyUpperChar = l := by
    rw [List.map_congr_left (fun c hc => pyUpperChar_fixed (hclass c hc))]
    exact List.map_id l
  have hdata : (String.mk l).data = l := rfl
  rw [hdata, h1, stripAccents_fixed hclass]
  have h2 : l.map keepChar = l := by
    rw [List.map_congr_left (fun c hc => keepChar_fixed (hclass c hc))]
    exact List.map_id l
  rw [h2, hgood]

/-! Spacing structure of `unwords` output. -/

theorem mem_of_getLast?_eq {l : List Char} {x : Char}
    (h : l.getLast? = some x) : x ∈ l := by
  have hx : x ∈ l.getLast? := h
  rcases List.mem_getLast?_eq_getLast hx with ⟨hne, hx2⟩
  exact hx2 ▸ List.getLast_mem hne

theorem getLast?_some_of_ne_nil {l : List Char} (h : l ≠ []) :
    ∃ x, l.getLast? = some x := by
  rcases l with _ | ⟨c, t⟩
  · exact absurd rfl h
  · exact ⟨(c :: t).getLast (by simp), List.getLast?_eq_getLast _ _⟩

theorem unwords_ne_nil {ws : List (List Char)} (h : goodWords ws) (hne : ws ≠ []) :
    unwords ws ≠ [] := by
  rcases ws with _ | ⟨w, rest⟩
  · exact absurd rfl hne
  · have hw := (h w (List.mem_cons_self _ _)).1
    rcases rest with _ | ⟨v, vs⟩
    · exact hw
    · show w ++ ' ' :: unwords (v :: vs) ≠ []
      simp [hw]

theorem unwords_head_ne_space {ws : List (List Char)} (h : goodWords ws) :
    (unwords ws).head? ≠ some ' ' := by
  rcases ws with _ | ⟨w, rest⟩
  · simp [unwords]
  · have hw := h w (List.mem_cons_self _ _)
    rcases w with _ | ⟨c, w'⟩
    · exact absurd rfl hw.1
    · have hc : c ≠ ' ' := fun hc => hw.2 (hc ▸ List.mem_cons_self _ _)
      rcases rest with _ | ⟨v, vs⟩
      · simpa [unwords] using hc
      · show ((c :: w') ++ ' ' :: unwords (v :: vs)).head? ≠ some ' '
        simpa using hc

theorem unwords_getLast_ne_space {ws : List (List Char)} (h : goodWords ws) :
    (unwords ws).getLast? ≠ some ' ' := by
  induction ws with
  | nil => simp [unwords]
  | cons w rest ih =>
    have hw := h w (List.mem_cons_self _ _)
    rcases rest with _ | ⟨v, vs⟩
    · show w.getLast? ≠ some ' '
      intro hlast
      exact hw.2 (mem_of_getLast?_eq hlast)
    · have hrest : goodWords (v :: vs) := fun u hu => h u (List.mem_cons_of_mem _ hu)
      have hne : unwords (v :: vs) ≠ [] :=
        unwords_ne_nil hrest (by simp)
      show (w ++ ' ' :: unwords (v :: vs)).getLast? ≠ some ' '
      obtain ⟨x, hx⟩ := getLast?_some_of_ne_nil hne
      have hxs : x ≠ ' ' := fun hxe => ih hrest (hxe ▸ hx)
      rcases hu : unwords (v :: vs) with _ | ⟨c, t⟩
      · exact absurd hu hne
      · rw [hu] at hx
        rw [List.getLast?_append, List.getLast?_cons_cons, hx]
        simpa using hxs

theorem chain_of_no_space {w : List Char} (h : ' ' ∉ w) :
    w.Chain' (fun a b => ¬(a = ' ' ∧ b = ' ')) := by
  induction w with
  | nil => simp
  | cons c t ih =>
    have hc : c ≠ ' ' := fun hc => h (hc ▸ List.mem_cons_self _ _)
    have ht : ' ' ∉ t := fun hm => h (List.mem_cons_of_mem _ hm)
    rw [List.chain'_cons']
    exact ⟨fun b _ => fun hab => hc hab.1, ih ht⟩

theorem unwords_chain {ws : List (List Char)} (h : goodWords ws) :
    (unwords ws).Chain' (fun a b => ¬(a = ' ' ∧ b = ' ')) := by
  induction ws with
  | nil => simp [unwords]
  | cons w rest ih =>
    have hw := h w (List.mem_cons_self _ _)
    rcases rest with _ | ⟨v, vs⟩
    · exact chain_of_no_space hw.2
    · have hrest : goodWords (v :: vs) := fun u hu => h u (List.mem_cons_of_mem _ hu)
      show ((w ++ ' ' :: unwords (v :: vs))).Chain' _
      rw [List.chain'_append]
      refine ⟨chain_of_no_space hw.2, ?_, ?_⟩
      · rw [List.chain'_cons']
        refine ⟨?_, ih hrest⟩
        intro b hb hab
        have hb2 : (unwords (v :: vs)).head? = some b := hb
        exact unwords_head_ne_space hrest (hab.2 ▸ hb2)
      · intro x hx y hy hxy
        have hx2 : w.getLast? = some x := hx
        exact hw.2 (hxy.1 ▸ mem_of_getLast?_eq hx2)

theorem collapseSpaces_idem (l : List Char) :
    collapseSpaces (collapseSpaces l) = collapseSpaces l :=
  collapseSpaces_unwords (goodWords_of_collapse l)

/-- C10: for every input string, the output of `normalize_name` consists
only of the uppercase letters `A`–`Z` (codes 65–90) separated by single
spaces, with no leading or trailing space; in particular the reserved
consonant `Ñ` never appears in any canonical form (NFKD decomposition
strips its tilde before the alphabet filter runs), and `normalize_name`
is idempotent, so canonical forms, index keys and tokens are all over the
plain `A`–`Z` alphabet. -/
theorem claim_c10_normalize_canonical (s : String) :
    (∀ c ∈ (normalize_name s).data, (65 ≤ c.toNat ∧ c.toNat ≤ 90) ∨ c = ' ') ∧
    'Ñ' ∉ (normalize_name s).data ∧
    (normalize_name s).data.head? ≠ some ' ' ∧
    (normalize_name s).data.getLast? ≠ some ' ' ∧
    List.Chain' (fun a b => ¬(a = ' ' ∧ b = ' ')) (normalize_name s).data ∧
    normalize_name (normalize_name s) = normalize_name s := by
  have hclass := charClass_of_mem_normalize s
  have hws := goodWords_of_collapse ((stripAccents (s.data.map pyUpperChar)).map keepChar)
  refine ⟨hclass, ?_, ?_, ?_, ?_, ?_⟩
  · intro h
    rcases hclass 'Ñ' h with ⟨_, h2⟩ | h2
    · revert h2; decide
    · revert h2; decide
  · exact unwords_head_ne_space hws
  · exact unwords_getLast_ne_space hws
  · exact unwords_chain hws
  · have hgood : collapseSpaces (normalize_name s).data = (normalize_name s).data :=
      collapseSpaces_idem _
    exact normalize_fixed_of_class hclass hgood

/-- Witness for C10 at a concrete input: the accented, punctuated,
ragged-spaced name collapses to the canonical form, and renormalizing is
the identity (via the theorem's idempotence conjunct). -/
theorem claim_c10_witness :
    normalize_name "  Gustavo  PETRO-ñ1 " = "GUSTAVO PETRO N" ∧
    normalize_name "GUSTAVO PETRO N" = "GUSTAVO PETRO N" := by
  have h1 : normalize_name "  Gustavo  PETRO-ñ1 " = "GUSTAVO PETRO N" := by decide
  have h2 := (claim_c10_normalize_canonical "  Gustavo  PETRO-ñ1 ").2.2.2.2.2
  rw [h1] at h2
  exact ⟨h1, h2⟩

/-! Inverted-index key structure (claim C8). -/

theorem addPosting_keys (m : List (String × List Nat)) (t : String) (i : Nat)
    (k : String) :
    k ∈ (addPosting m t i).map Prod.fst ↔ k = t ∨ k ∈ m.map Prod.fst := by
  induction m with
  | nil => simp [addPosting]
  | cons p rest ih =>
    obtain ⟨pk, ps⟩ := p
    by_cases hp : pk = t
    · subst hp
      simp [addPosting]
    · simp only [addPosting, if_neg hp, List.map_cons, List.mem_cons, ih]
      tauto

theorem foldl_addPosting_keys (L : List String) (i : Nat)
    (m : List (String × List Nat)) (k : String) :
    k ∈ (L.foldl (fun m t => addPosting m t i) m).map Prod.fst ↔
      k ∈ L ∨ k ∈ m.map Prod.fst := by
  induction L generalizing m with
  | nil => simp
  | cons t L ih =>
    rw [List.foldl_cons, ih, addPosting_keys]
    simp only [List.mem_cons]
    tauto

/-- The C8 invariant on an index state: the posting keys are exactly the
length-≥-3 tokens of the indexed items. -/
def postingKeysInv (st : OfacIndex) : Prop :=
  ∀ k : String, k ∈ st.token_to_ids.map Prod.fst ↔
    3 ≤ k.length ∧ ∃ it ∈ st.items, k ∈ it.tokens

theorem buildStep_postingKeysInv {st : OfacIndex} (e : OfacEntry)
    (h : postingKeysInv st) : postingKeysInv (buildStep st e) := by
  unfold buildStep
  by_cases h1 : normalize_name e.name = ""
  · simpa [h1] using h
  · rw [if_neg h1]
    by_cases h2 : tokenize_name (normalize_name e.name) = []
    · simpa [h2] using h
    · rw [if_neg h2]
      intro k
      simp only [foldl_addPosting_keys, List.mem_filter, List.mem_dedup,
        decide_eq_true_eq, h k]
      constructor
      · rintro (⟨hmem, hlen⟩ | ⟨hlen, it, hit, hk⟩)
        · exact ⟨hlen, _, List.mem_append_right _ (List.mem_cons_self _ _), hmem⟩
        · exact ⟨hlen, it, List.mem_append_left _ hit, hk⟩
      · rintro ⟨hlen, it, hit, hk⟩
        rcases List.mem_append.mp hit with hit | hit
        · exact Or.inr ⟨hlen, it, hit, hk⟩
        · rcases List.mem_cons.mp hit with hit | hit
          · subst hit
            exact Or.inl ⟨hk, hlen⟩
          · simp at hit

theorem build_postingKeysInv (entries : List OfacEntry) :
    postingKeysInv (build_ofac_name_index entries) := by
  have hgen : ∀ es : List OfacEntry, ∀ st : OfacIndex, postingKeysInv st →
      postingKeysInv (es.foldl buildStep st) := by
    intro es
    induction es with
    | nil => exact fun st h => h
    | cons e es ih => exact fun st h => ih _ (buildStep_postingKeysInv e h)
  refine hgen entries ⟨[], [], [], []⟩ ?_
  intro k
  simp

/-- C8: for every input entry list, every key of the token-postings map
built by `build_ofac_name_index` has length ≥ 3, and the key set equals
exactly the set of length-≥-3 tokens appearing in the token list of at
least one indexed item. -/
theorem claim_c8_posting_keys (entries : List OfacEntry) :
    (∀ p ∈ (build_ofac_name_index entries).token_to_ids, 3 ≤ p.1.length) ∧
    (∀ k : String, k ∈ (build_ofac_name_index entries).token_to_ids.map Prod.fst ↔
      3 ≤ k.length ∧ ∃ it ∈ (build_ofac_name_index entries).items, k ∈ it.tokens) := by
  have h := build_postingKeysInv entries
  refine ⟨?_, h⟩
  intro p hp
  exact ((h p.1).mp (List.mem_map_of_mem Prod.fst hp)).1

/-- Witness for C8: in the index of `"AB CDE"` the token `CDE` is a
posting key (length 3, appearing in the item's tokens) while the length-2
token `AB` is kept in the item's token list but is not a posting key. -/
theorem claim_c8_witness :
    (3 ≤ "CDE".length ∧
      ∃ it ∈ (build_ofac_name_index [⟨"1", "AB CDE"⟩]).items, "CDE" ∈ it.tokens) ∧
    "AB" ∉ (build_ofac_name_index [⟨"1", "AB CDE"⟩]).token_to_ids.map Prod.fst := by
  constructor
  · exact ((claim_c8_posting_keys [⟨"1", "AB CDE"⟩]).2 "CDE").mp (by decide)
  · intro hmem
    have h := ((claim_c8_posting_keys [⟨"1", "AB CDE"⟩]).2 "AB").mp hmem
    revert h
    decide

/-! Deduplication (claim C9). -/

/-- Structural reformulation of `dedupeLoop` that tracks the remaining
capacity instead of the accumulated output; `dedupeLoop_eq_go` proves it
computes the same function. -/
def dedupeGo (cap : Nat) (seen : List String) :
    List (String × ℚ × OfacEntry) → List (String × ℚ × OfacEntry)
  | [] => []
  | m :: rest =>
    if core_person_key m.1 ∈ seen then dedupeGo cap seen rest
    else if cap ≤ 1 then [m]
    else m :: dedupeGo (cap - 1) (seen ++ [core_person_key m.1]) rest

theorem dedupeLoop_eq_go (cap : Nat) (ms : List (String × ℚ × OfacEntry)) :
    ∀ seen out, out.length < cap →
      dedupeLoop cap seen out ms = out ++ dedupeGo (cap - out.length) seen ms := by
  induction ms with
  | nil =>
    intro seen out _
    simp [dedupeLoop, dedupeGo]
  | cons m rest ih =>
    intro seen out hlt
    by_cases hseen : core_person_key m.1 ∈ seen
    · rw [show dedupeLoop cap seen out (m :: rest) = dedupeLoop cap seen out rest by
        simp [dedupeLoop, hseen]]
      rw [show dedupeGo (cap - out.length) seen (m :: rest) =
          dedupeGo (cap - out.length) seen rest by simp [dedupeGo, hseen]]
      exact ih seen out hlt
    · by_cases hcap : cap ≤ out.length + 1
      · have hcap2 : cap = out.length + 1 := by omega
        rw [show dedupeLoop cap seen out (m :: rest) = out ++ [m] by
          have hc : cap ≤ (out ++ [m]).length := by simp; omega
          simp only [dedupeLoop]
          rw [if_neg hseen, if_pos hc]]
        rw [show dedupeGo (cap - out.length) seen (m :: rest) = [m] by
          simp [dedupeGo, hseen, hcap2]]
      · rw [show dedupeLoop cap seen out (m :: rest) =
            dedupeLoop cap (seen ++ [core_person_key m.1]) (out ++ [m]) rest by
          have hc : ¬ cap ≤ (out ++ [m]).length := by simp; omega
          simp only [dedupeLoop]
          rw [if_neg hseen, if_neg hc]]
        have hlt2 : (out ++ [m]).length < cap := by simp; omega
        rw [ih _ _ hlt2]
        rw [show dedupeGo (cap - out.length) seen (m :: rest) =
            m :: dedupeGo (cap - out.length - 1) (seen ++ [core_person_key m.1]) rest by
          have hc : ¬ cap - out.length ≤ 1 := by omega
          simp [dedupeGo, hseen, hc]]
        rw [show (out ++ [m]).length = out.length + 1 by simp]
        rw [show cap - (out.length + 1) = cap - out.length - 1 by omega]
        simp

theorem dedupe_by_core_eq_go (ms : List (String × ℚ × OfacEntry)) (top_k : Nat) :
    dedupe_by_core ms top_k = dedupeGo (max 1 top_k) [] ms := by
  unfold dedupe_by_core
  rw [dedupeLoop_eq_go (max 1 top_k) ms [] [] (by simp)]
  simp

theorem dedupeGo_length_le (cap : Nat) (hcap : 1 ≤ cap) (seen : List String)
    (ms : List (String × ℚ × OfacEntry)) : (dedupeGo cap seen ms).length ≤ cap := by
  induction ms generalizing cap seen with
  | nil => simp [dedupeGo]
  | cons m rest ih =>
    unfold dedupeGo
    by_cases hseen : core_person_key m.1 ∈ seen
    · rw [if_pos hseen]
      exact ih cap hcap seen
    · rw [if_neg hseen]
      by_cases h1 : cap ≤ 1
      · rw [if_pos h1]
        simpa using hcap
      · rw [if_neg h1]
        have := ih (cap - 1) (by omega) (seen ++ [core_person_key m.1])
        simp only [List.length_cons]
        omega

theorem dedupeGo_keys (cap : Nat) (seen : List String)
    (ms : List (String × ℚ × OfacEntry)) :
    ((dedupeGo cap seen ms).map (fun m => core_person_key m.1)).Nodup ∧
      ∀ m ∈ dedupeGo cap seen ms, core_person_key m.1 ∉ seen := by
  induction ms generalizing cap seen with
  | nil => simp [dedupeGo]
  | cons m rest ih =>
    unfold dedupeGo
    by_cases hseen : core_person_key m.1 ∈ seen
    · rw [if_pos hseen]
      exact ih cap seen
    · rw [if_neg hseen]
      by_cases h1 : cap ≤ 1
      · rw [if_pos h1]
        simp [hseen]
      · rw [if_neg h1]
        obtain ⟨hnodup, hout⟩ := ih (cap - 1) (seen ++ [core_person_key m.1])
        constructor
        · rw [List.map_cons, List.nodup_cons]
          refine ⟨?_, hnodup⟩
          intro hmem
          rw [List.mem_map] at hmem
          obtain ⟨u, hu, hk⟩ := hmem
          exact hout u hu (List.mem_append_right _ (by simp [hk]))
        · intro u hu
          rcases List.mem_cons.mp hu with hu | hu
          · exact hu ▸ hseen
          · intro hmem
            exact hout u hu (List.mem_append_left _ hmem)

theorem dedupeGo_fixed (cap : Nat) (hcap : 1 ≤ cap) (seen : List String)
    (ms : List (String × ℚ × OfacEntry))
    (hnodup : (ms.map (fun m => core_person_key m.1)).Nodup)
    (hseen : ∀ m ∈ ms, core_person_key m.1 ∉ seen)
    (hlen : ms.length ≤ cap) : dedupeGo cap seen ms = ms := by
  induction ms generalizing cap seen with
  | nil => simp [dedupeGo]
  | cons m rest ih =>
    have hm := hseen m (List.mem_cons_self _ _)
    unfold dedupeGo
    rw [if_neg hm]
    by_cases h1 : cap ≤ 1
    · have hrest : rest = [] := by
        have : rest.length = 0 := by
          simp at hlen
          omega
        exact List.eq_nil_of_length_eq_zero this
      rw [if_pos h1, hrest]
    · rw [if_neg h1]
      rw [List.map_cons, List.nodup_cons] at hnodup
      congr 1
      refine ih (cap - 1) (by omega) (seen ++ [core_person_key m.1]) hnodup.2 ?_ ?_
      · intro u hu
        intro hmem
        rcases List.mem_append.mp hmem with h | h
        · exact hseen u (List.mem_cons_of_mem _ hu) h
        · rcases List.mem_cons.mp h with h | h
          · exact hnodup.1 (h ▸ List.mem_map_of_mem _ hu)
          · simp at h
      · simp at hlen
        omega

/-- C9: for every list of matches and every `topK`, applying
`dedupe_by_core` a second time (with the same `topK`) to its own output
returns that output unchanged. -/
theorem claim_c9_dedupe_idempotent (ms : List (String × ℚ × OfacEntry))
    (top_k : Nat) :
    dedupe_by_core (dedupe_by_core ms top_k) top_k = dedupe_by_core ms top_k := by
  rw [dedupe_by_core_eq_go, dedupe_by_core_eq_go]
  have hcap : 1 ≤ max 1 top_k := le_max_left 1 top_k
  obtain ⟨hnodup, _⟩ := dedupeGo_keys (max 1 top_k) [] ms
  exact dedupeGo_fixed _ hcap _ _ hnodup (by simp)
    (dedupeGo_length_le _ hcap _ _)

/-! Characterization of the scoring loops. -/

/-- The hard overlap gate on candidate id `cid`: at least two tokens shared
between the query token set and the candidate's token set. -/
def gateOK (qset : List String) (index : OfacIndex) (cid : Nat) : Prop :=
  2 ≤ (pyInter qset (index.items.getD cid defaultItem).token_set).length

/-- Composite score of candidate id `cid`. -/
def candScore (s1fn s2fn : String → String → ℚ) (q : String) (qset : List String)
    (qEnt : Bool) (index : OfacIndex) (cid : Nat) : ℚ :=
  rawScore s1fn s2fn q qset qEnt (index.items.getD cid defaultItem)

theorem item_mem_of_gateOK {qset : List String} {index : OfacIndex} {cid : Nat}
    (h : gateOK qset index cid) : index.items.getD cid defaultItem ∈ index.items := by
  by_cases hlt : cid < index.items.length
  · rw [List.getD_eq_getElem?_getD, List.getElem?_eq_getElem hlt]
    exact List.getElem_mem hlt
  · exfalso
    unfold gateOK at h
    rw [List.getD_eq_getElem?_getD, List.getElem?_eq_none (by omega)] at h
    simp [defaultItem, pyInter] at h

theorem scoredBody_eq_some {s1fn s2fn : String → String → ℚ} {q : String}
    {qset : List String} {qEnt : Bool} {index : OfacIndex} {ms : ℚ} {cid : Nat}
    {x : String × ℚ × OfacEntry} :
    scoredBody s1fn s2fn q qset qEnt index ms cid = some x ↔
      gateOK qset index cid ∧
      ms ≤ candScore s1fn s2fn q qset qEnt index cid ∧
      x = ((index.items.getD cid defaultItem).norm,
           round1 (candScore s1fn s2fn q qset qEnt index cid),
           (index.items.getD cid defaultItem).entry) := by
  unfold scoredBody gateOK candScore
  by_cases hov : (pyInter qset (index.items.getD cid defaultItem).token_set).length < 2
  · rw [if_pos hov]
    constructor
    · intro h; simp at h
    · rintro ⟨hg, -, -⟩; omega
  · rw [if_neg hov, if_neg (fun h => hov h.2)]
    by_cases hms : ms ≤ rawScore s1fn s2fn q qset qEnt (index.items.getD cid defaultItem)
    · rw [if_pos hms]
      constructor
      · intro h
        exact ⟨by omega, hms, (Option.some_inj.mp h).symm⟩
      · rintro ⟨-, -, hx⟩
        rw [hx]
    · rw [if_neg hms]
      constructor
      · intro h; simp at h
      · rintro ⟨-, hms2, -⟩; exact absurd hms2 hms

theorem mem_scoredFor {s1fn s2fn : String → String → ℚ} {q : String}
    {qset : List String} {qEnt : Bool} {index : OfacIndex} {cand_ids : List Nat}
    {ms : ℚ} {x : String × ℚ × OfacEntry} :
    x ∈ scoredFor s1fn s2fn q qset qEnt index cand_ids ms ↔
      ∃ cid ∈ cand_ids, gateOK qset index cid ∧
        ms ≤ candScore s1fn s2fn q qset qEnt index cid ∧
        x = ((index.items.getD cid defaultItem).norm,
             round1 (candScore s1fn s2fn q qset qEnt index cid),
             (index.items.getD cid defaultItem).entry) := by
  unfold scoredFor
  rw [List.mem_filterMap]
  constructor
  · rintro ⟨cid, hcid, hbody⟩
    obtain ⟨hg, hms, hx⟩ := scoredBody_eq_some.mp hbody
    exact ⟨cid, hcid, hg, hms, hx⟩
  · rintro ⟨cid, hcid, hg, hms, hx⟩
    exact ⟨cid, hcid, scoredBody_eq_some.mpr ⟨hg, hms, hx⟩⟩

theorem filterMap_length_mono {α β : Type} (f g : α → Option β)
    (h : ∀ a, (f a).isSome → (g a).isSome) (l : List α) :
    (l.filterMap f).length ≤ (l.filterMap g).length := by
  induction l with
  | nil => simp
  | cons a l ih =>
    rw [List.filterMap_cons, List.filterMap_cons]
    rcases hf : f a with _ | b
    · rcases hg : g a with _ | c
      · exact ih
      · simp only [List.length_cons]
        omega
    · have := h a (by simp [hf])
      rcases hg : g a with _ | c
      · rw [hg] at this; simp at this
      · simp only [List.length_cons]
        omega

theorem bestFold_go (s1fn s2fn : String → String → ℚ) (q : String)
    (qset : List String) (qEnt : Bool) (index : OfacIndex) (l : List Nat) :
    ∀ acc : Option (ℚ × String × OfacEntry),
      (l.foldl (bestStep s1fn s2fn q qset qEnt index) acc = none →
        acc = none ∧ ∀ cid ∈ l, ¬ gateOK qset index cid) ∧
      (∀ b, l.foldl (bestStep s1fn s2fn q qset qEnt index) acc = some b →
        (∀ a, acc = some a → a.1 ≤ b.1) ∧
        (∀ cid ∈ l, gateOK qset index cid →
          candScore s1fn s2fn q qset qEnt index cid ≤ b.1) ∧
        (acc = some b ∨ ∃ cid ∈ l, gateOK qset index cid ∧
          b = (candScore s1fn s2fn q qset qEnt index cid,
               (index.items.getD cid defaultItem).norm,
               (index.items.getD cid defaultItem).entry))) := by
  induction l with
  | nil =>
    intro acc
    constructor
    · intro h
      exact ⟨h, by simp⟩
    · intro b h
      rw [List.foldl_nil] at h
      refine ⟨fun a ha => ?_, by simp, Or.inl h⟩
      rw [h] at ha
      exact le_of_eq (congrArg Prod.fst (Option.some_inj.mp ha).symm)
  | cons cid l ih =>
    intro acc
    rw [List.foldl_cons]
    by_cases hov : (pyInter qset (index.items.getD cid defaultItem).token_set).length < 2
    · have hstep : bestStep s1fn s2fn q qset qEnt index acc cid = acc := by
        unfold bestStep
        rw [if_pos hov]
      rw [hstep]
      have hgate : ¬ gateOK qset index cid := by
        unfold gateOK
        omega
      constructor
      · intro h
        obtain ⟨h1, h2⟩ := (ih acc).1 h
        refine ⟨h1, fun c hc => ?_⟩
        rcases List.mem_cons.mp hc with hc | hc
        · exact hc ▸ hgate
        · exact h2 c hc
      · intro b h
        obtain ⟨h1, h2, h3⟩ := (ih acc).2 b h
        refine ⟨h1, fun c hc hg => ?_, ?_⟩
        · rcases List.mem_cons.mp hc with hc | hc
          · exact absurd (hc ▸ hg) hgate
          · exact h2 c hc hg
        · rcases h3 with h3 | ⟨c, hc, hg, hb⟩
          · exact Or.inl h3
          · exact Or.inr ⟨c, List.mem_cons_of_mem _ hc, hg, hb⟩
    · have hgate : gateOK qset index cid := by
        unfold gateOK
        omega
      rcases acc with _ | b0
      · have hstep : bestStep s1fn s2fn q qset qEnt index none cid =
            some (candScore s1fn s2fn q qset qEnt index cid,
              (index.items.getD cid defaultItem).norm,
              (index.items.getD cid defaultItem).entry) := by
          unfold bestStep candScore
          rw [if_neg hov, if_neg (fun h => hov h.2)]
        rw [hstep]
        constructor
        · intro h
          exact absurd ((ih _).1 h).1 (by simp)
        · intro b h
          obtain ⟨h1, h2, h3⟩ := (ih _).2 b h
          have hsb : candScore s1fn s2fn q qset qEnt index cid ≤ b.1 := by
            have := h1 _ rfl
            simpa using this
          refine ⟨by simp, fun c hc hg => ?_, ?_⟩
          · rcases List.mem_cons.mp hc with hc | hc
            · exact hc ▸ hsb
            · exact h2 c hc hg
          · rcases h3 with h3 | ⟨c, hc, hg, hb⟩
            · exact Or.inr ⟨cid, List.mem_cons_self _ _, hgate,
                (Option.some_inj.mp h3).symm⟩
            · exact Or.inr ⟨c, List.mem_cons_of_mem _ hc, hg, hb⟩
      · have hstep : bestStep s1fn s2fn q qset qEnt index (some b0) cid =
            if b0.1 < candScore s1fn s2fn q qset qEnt index cid then
              some (candScore s1fn s2fn q qset qEnt index cid,
                (index.items.getD cid defaultItem).norm,
                (index.items.getD cid defaultItem).entry)
            else some b0 := by
          unfold bestStep candScore
          rw [if_neg hov, if_neg (fun h => hov h.2)]
        by_cases hlt : b0.1 < candScore s1fn s2fn q qset qEnt index cid
        · rw [hstep, if_pos hlt]
          constructor
          · intro h
            exact absurd ((ih _).1 h).1 (by simp)
          · intro b h
            obtain ⟨h1, h2, h3⟩ := (ih _).2 b h
            have hsb : candScore s1fn s2fn q qset qEnt index cid ≤ b.1 := by
              have := h1 _ rfl
              simpa using this
            refine ⟨fun a ha => ?_, fun c hc hg => ?_, ?_⟩
            · rw [← Option.some_inj.mp ha]
              exact le_of_lt (lt_of_lt_of_le hlt hsb)
            · rcases List.mem_cons.mp hc with hc | hc
              · exact hc ▸ hsb
              · exact h2 c hc hg
            · rcases h3 with h3 | ⟨c, hc, hg, hb⟩
              · exact Or.inr ⟨cid, List.mem_cons_self _ _, hgate,
                  (Option.some_inj.mp h3).symm⟩
              · exact Or.inr ⟨c, List.mem_cons_of_mem _ hc, hg, hb⟩
        · rw [hstep, if_neg hlt]
          constructor
          · intro h
            exact absurd ((ih _).1 h).1 (by simp)
          · intro b h
            obtain ⟨h1, h2, h3⟩ := (ih _).2 b h
            have hb0 : b0.1 ≤ b.1 := h1 _ rfl
            refine ⟨fun a ha => ?_, fun c hc hg => ?_, ?_⟩
            · rw [← Option.some_inj.mp ha]
              exact hb0
            · rcases List.mem_cons.mp hc with hc | hc
              · subst hc
                exact le_trans (not_lt.mp hlt) hb0
              · exact h2 c hc hg
            · rcases h3 with h3 | ⟨c, hc, hg, hb⟩
              · exact Or.inl h3
              · exact Or.inr ⟨c, List.mem_cons_of_mem _ hc, hg, hb⟩

/-! Map-key invariant of the index build, and the exact-match claims. -/

theorem build_map_keys (entries : List OfacEntry) :
    ∀ p ∈ (build_ofac_name_index entries).map, p.1 ≠ "" := by
  have hgen : ∀ es : List OfacEntry, ∀ st : OfacIndex,
      (∀ p ∈ st.map, p.1 ≠ "") → ∀ p ∈ (es.foldl buildStep st).map, p.1 ≠ "" := by
    intro es
    induction es with
    | nil => exact fun st h => h
    | cons e es ih =>
      intro st h
      refine ih _ ?_
      unfold buildStep
      by_cases h1 : normalize_name e.name = ""
      · simpa [h1] using h
      · rw [if_neg h1]
        by_cases h2 : tokenize_name (normalize_name e.name) = []
        · simpa [h2] using h
        · rw [if_neg h2]
          by_cases h3 : (st.map.lookup (normalize_name e.name)).isSome
          · simpa [h3] using h
          · simp only [h3, if_false]
            intro p hp
            rcases List.mem_append.mp hp with hp | hp
            · exact h p hp
            · rcases List.mem_cons.mp hp with hp | hp
              · rw [hp]
                exact h1
              · simp at hp
  exact hgen entries ⟨[], [], [], []⟩ (by simp)

/-- A trivial instantiation of the opaque external scorers, used only to
evaluate the engine at concrete inputs; the refutations stated with it do
not depend on the scorer values (the diverging paths never score). -/
def zeroScorer : String → String → ℚ := fun _ _ => 0

/-- Counterexample to C1: in the index of the single entry `"MADURO"`, the
query `"Maduro"` normalizes to the canonical key `MADURO`, and
`fuzzy_match` returns that entry with score 100 — but `fuzzy_top_matches`
returns the empty list, not the entry with score 100: it has no
exact-match short circuit and rejects the single-token query first. -/
theorem claim_c1_counterexample :
    (build_ofac_name_index [⟨"1", "MADURO"⟩]).map.lookup (normalize_name "Maduro") =
      some ⟨"1", "MADURO"⟩ ∧
    fuzzy_match zeroScorer zeroScorer "Maduro"
      (build_ofac_name_index [⟨"1", "MADURO"⟩]) 92 =
      some ("MADURO", 100, ⟨"1", "MADURO"⟩) ∧
    fuzzy_top_matches zeroScorer zeroScorer "Maduro"
      (build_ofac_name_index [⟨"1", "MADURO"⟩]) 10 80 = [] := by
  refine ⟨by decide, by decide, by decide⟩

/-- C1 amended: only `fuzzy_match` has the exact-match short circuit: for
every reference list and every query whose normalized form is a key of
the index's canonical-to-entry map, `fuzzy_match` returns that entry with
score exactly 100, before any blocking or scoring (for any scorers and
any threshold). `fuzzy_top_matches` has no such short circuit (see the
counterexample). -/
theorem claim_c1_exact_match (s1fn s2fn : String → String → ℚ) (name : String)
    (entries : List OfacEntry) (ms : ℚ) (e : OfacEntry)
    (h : (build_ofac_name_index entries).map.lookup (normalize_name name) = some e) :
    fuzzy_match s1fn s2fn name (build_ofac_name_index entries) ms =
      some (normalize_name name, 100, e) := by
  have hq : normalize_name name ≠ "" :=
    build_map_keys entries _ (lookup_mem _ _ _ h)
  simp only [fuzzy_match]
  rw [if_neg hq, h]

/-- Witness for the amended C1 at a concrete input. -/
theorem claim_c1_witness :
    fuzzy_match zeroScorer zeroScorer "Maduro"
      (build_ofac_name_index [⟨"1", "MADURO"⟩]) 92 =
      some (normalize_name "Maduro", 100, ⟨"1", "MADURO"⟩) :=
  claim_c1_exact_match zeroScorer zeroScorer "Maduro" [⟨"1", "MADURO"⟩] 92
    ⟨"1", "MADURO"⟩ (by decide)

/-- Counterexample to C2: the query `"Maduro"` normalizes to a single
token, yet `fuzzy_match` returns a match (the exact-canonical short
circuit runs before the single-token rejection), so a single-token query
is not rejected "regardless of the reference content". -/
theorem claim_c2_counterexample :
    (tokenize_name (normalize_name "Maduro")).length < 2 ∧
    fuzzy_match zeroScorer zeroScorer "Maduro"
      (build_ofac_name_index [⟨"1", "MADURO"⟩]) 92 =
      some ("MADURO", 100, ⟨"1", "MADURO"⟩) := by
  refine ⟨by decide, by decide⟩

/-- C2 amended: a query normalizing to fewer than 2 tokens always yields
the empty sequence from `fuzzy_top_matches`; it yields no match from
`fuzzy_match` provided its normalized form is not an exact key of the
canonical-to-entry map (the exact-match short circuit runs first). -/
theorem claim_c2_single_token (s1fn s2fn : String → String → ℚ) (name : String)
    (index : OfacIndex) (top_k : Nat) (ms1 ms2 : ℚ)
    (hlen : (tokenize_name (normalize_name name)).length < 2) :
    fuzzy_top_matches s1fn s2fn name index top_k ms1 = [] ∧
    (index.map.lookup (normalize_name name) = none →
      fuzzy_match s1fn s2fn name index ms2 = none) := by
  constructor
  · simp only [fuzzy_top_matches]
    rw [if_pos (Or.inr hlen)]
  · intro hlk
    simp only [fuzzy_match]
    by_cases hq : normalize_name name = ""
    · rw [if_pos hq]
    · rw [if_neg hq, hlk, if_pos hlen]

/-- Witness for the amended C2 at a concrete input: the single-token query
`"Nadie"` is absent from the `"MADURO"` index. -/
theorem claim_c2_witness :
    fuzzy_top_matches zeroScorer zeroScorer "Nadie"
      (build_ofac_name_index [⟨"1", "MADURO"⟩]) 10 80 = [] ∧
    fuzzy_match zeroScorer zeroScorer "Nadie"
      (build_ofac_name_index [⟨"1", "MADURO"⟩]) 92 = none := by
  have h := claim_c2_single_token zeroScorer zeroScorer "Nadie"
    (build_ofac_name_index [⟨"1", "MADURO"⟩]) 10 80 92 (by decide)
  exact ⟨h.1, h.2 (by decide)⟩

/-- Counterexample to C3: `fuzzy_match` on the single-token exact query
`"Maduro"` returns the `"MADURO"` item, whose token set shares only one
token with the query token set — the returned match violates
`|Q ∩ C| ≥ 2` because the exact-match short circuit bypasses the overlap
gate. -/
theorem claim_c3_counterexample :
    fuzzy_match zeroScorer zeroScorer "Maduro"
      (build_ofac_name_index [⟨"1", "MADURO"⟩]) 92 =
      some ("MADURO", 100, ⟨"1", "MADURO"⟩) ∧
    (build_ofac_name_index [⟨"1", "MADURO"⟩]).items =
      [⟨"MADURO", ["MADURO"], ["MADURO"], false, ⟨"1", "MADURO"⟩⟩] ∧
    (pyInter (tokenize_name (normalize_name "Maduro")).dedup ["MADURO"]).length = 1 := by
  refine ⟨by decide, by decide, by decide⟩

/-- Inversion of a successful `fuzzy_match`: the result comes either from
the exact-canonical short circuit (score literally 100) or from the
best-candidate scan over the blocked candidate pool, thresholded against
`min_score` and rounded. -/
theorem fuzzy_match_some_inv {s1fn s2fn : String → String → ℚ} {name : String}
    {index : OfacIndex} {ms : ℚ} {nm : String} {sc : ℚ} {e : OfacEntry}
    (h : fuzzy_match s1fn s2fn name index ms = some (nm, sc, e)) :
    (index.map.lookup (normalize_name name) = some e ∧
      nm = normalize_name name ∧ sc = 100) ∨
    (index.map.lookup (normalize_name name) = none ∧
      ∃ b, bestFold s1fn s2fn (normalize_name name)
          (tokenize_name (normalize_name name)).dedup
          (looks_like_entity (tokenize_name (normalize_name name))) index
          (_candidate_ids_for_query (tokenize_name (normalize_name name)) index 5000) =
            some b ∧
        ms ≤ b.1 ∧ nm = b.2.1 ∧ e = b.2.2 ∧ sc = round1 b.1) := by
  simp only [fuzzy_match] at h
  split at h
  · exact absurd h (by simp)
  · split at h
    · rename_i e0 heq
      rw [Option.some_inj, Prod.mk.injEq, Prod.mk.injEq] at h
      obtain ⟨h1, h2, h3⟩ := h
      exact Or.inl ⟨h3 ▸ heq, h1.symm, h2.symm⟩
    · rename_i heq
      split at h
      · exact absurd h (by simp)
      · split at h
        · exact absurd h (by simp)
        · split at h
          · exact absurd h (by simp)
          · rename_i score nm0 e0 heq2
            split at h
            · rename_i hms
              rw [Option.some_inj, Prod.mk.injEq, Prod.mk.injEq] at h
              obtain ⟨h1, h2, h3⟩ := h
              exact Or.inr ⟨heq, (score, nm0, e0), heq2, hms, h1.symm, h3.symm, h2.symm⟩
            · exact absurd h (by simp)

/-- Every element of `fuzzy_top_matches` output is an element of the
scored-candidate list (truncation and sorting only reorder and drop). -/
theorem mem_fuzzy_top_matches {s1fn s2fn : String → String → ℚ} {name : String}
    {index : OfacIndex} {top_k : Nat} {ms : ℚ} {x : String × ℚ × OfacEntry}
    (hx : x ∈ fuzzy_top_matches s1fn s2fn name index top_k ms) :
    x ∈ scoredFor s1fn s2fn (normalize_name name)
      (tokenize_name (normalize_name name)).dedup
      (looks_like_entity (tokenize_name (normalize_name name))) index
      (_candidate_ids_for_query (tokenize_name (normalize_name name)) index 5000) ms := by
  simp only [fuzzy_top_matches] at hx
  split at hx
  · simp at hx
  · split at hx
    · simp at hx
    · exact ((List.perm_insertionSort matchRel _).mem_iff).mp (List.take_subset _ _ hx)

/-- C3 amended: every match returned by `fuzzy_top_matches` shares at
least 2 tokens with the matched item's token set; every match returned by
`fuzzy_match` either is the exact-canonical short circuit (score 100,
where the overlap can be 1) or shares at least 2 tokens with the matched
item's token set. -/
theorem claim_c3_overlap_gate (s1fn s2fn : String → String → ℚ) (name : String)
    (index : OfacIndex) (top_k : Nat) (ms1 ms2 : ℚ) :
    (∀ x ∈ fuzzy_top_matches s1fn s2fn name index top_k ms1,
      ∃ it ∈ index.items, x.1 = it.norm ∧ x.2.2 = it.entry ∧
        2 ≤ (pyInter (tokenize_name (normalize_name name)).dedup it.token_set).length) ∧
    (∀ nm sc e, fuzzy_match s1fn s2fn name index ms2 = some (nm, sc, e) →
      (index.map.lookup (normalize_name name) = some e ∧
        nm = normalize_name name ∧ sc = 100) ∨
      ∃ it ∈ index.items, nm = it.norm ∧ e = it.entry ∧
        2 ≤ (pyInter (tokenize_name (normalize_name name)).dedup it.token_set).length) := by
  constructor
  · intro x hx
    obtain ⟨cid, -, hg, -, hxeq⟩ := mem_scoredFor.mp (mem_fuzzy_top_matches hx)
    refine ⟨index.items.getD cid defaultItem, item_mem_of_gateOK hg, ?_, ?_, hg⟩
    · rw [hxeq]
    · rw [hxeq]
  · intro nm sc e h
    rcases fuzzy_match_some_inv h with h | ⟨-, b, hbf, -, hnm, he, -⟩
    · exact Or.inl h
    · obtain ⟨-, -, hprov⟩ := (bestFold_go s1fn s2fn _ _ _ index _ none).2 b hbf
      rcases hprov with hprov | ⟨cid, -, hg, hb⟩
      · simp at hprov
      · refine Or.inr ⟨index.items.getD cid defaultItem, item_mem_of_gateOK hg, ?_, ?_, hg⟩
        · rw [hnm, hb]
        · rw [he, hb]

/-- Witness for the amended C3 at a concrete input, through the
exact-match branch of `fuzzy_match`. -/
theorem claim_c3_witness :
    ((build_ofac_name_index [⟨"1", "MADURO"⟩]).map.lookup (normalize_name "Maduro") =
        some ⟨"1", "MADURO"⟩ ∧
      "MADURO" = normalize_name "Maduro" ∧ (100 : ℚ) = 100) ∨
    ∃ it ∈ (build_ofac_name_index [⟨"1", "MADURO"⟩]).items,
      "MADURO" = it.norm ∧ (⟨"1", "MADURO"⟩ : OfacEntry) = it.entry ∧
      2 ≤ (pyInter (tokenize_name (normalize_name "Maduro")).dedup it.token_set).length :=
  (claim_c3_overlap_gate zeroScorer zeroScorer "Maduro"
    (build_ofac_name_index [⟨"1", "MADURO"⟩]) 10 80 92).2 "MADURO" 100
    ⟨"1", "MADURO"⟩ (by decide)

/-- C6: for every fixed query, index and `topK`, raising the `minScore`
threshold never increases the size of the result sequence of
`fuzzy_top_matches`. -/
theorem claim_c6_threshold_monotone (s1fn s2fn : String → String → ℚ)
    (name : String) (index : OfacIndex) (top_k : Nat) (m1 m2 : ℚ) (h : m1 ≤ m2) :
    (fuzzy_top_matches s1fn s2fn name index top_k m2).length ≤
      (fuzzy_top_matches s1fn s2fn name index top_k m1).length := by
  simp only [fuzzy_top_matches]
  by_cases h1 : normalize_name name = "" ∨
      (tokenize_name (normalize_name name)).length < 2
  · rw [if_pos h1, if_pos h1]
  · rw [if_neg h1, if_neg h1]
    by_cases h2 : _candidate_ids_for_query (tokenize_name (normalize_name name))
        index 5000 = []
    · rw [if_pos h2, if_pos h2]
    · rw [if_neg h2, if_neg h2]
      rw [List.length_take, List.length_take,
        (List.perm_insertionSort matchRel _).length_eq,
        (List.perm_insertionSort matchRel _).length_eq]
      have hmono : (scoredFor s1fn s2fn (normalize_name name)
            (tokenize_name (normalize_name name)).dedup
            (looks_like_entity (tokenize_name (normalize_name name))) index
            (_candidate_ids_for_query (tokenize_name (normalize_name name))
              index 5000) m2).length ≤
          (scoredFor s1fn s2fn (normalize_name name)
            (tokenize_name (normalize_name name)).dedup
            (looks_like_entity (tokenize_name (normalize_name name))) index
            (_candidate_ids_for_query (tokenize_name (normalize_name name))
              index 5000) m1).length := by
        unfold scoredFor
        refine filterMap_length_mono _ _ (fun cid hsome => ?_) _
        rw [Option.isSome_iff_exists] at hsome ⊢
        obtain ⟨x, hx⟩ := hsome
        obtain ⟨hg, hms, hxe⟩ := scoredBody_eq_some.mp hx
        exact ⟨x, scoredBody_eq_some.mpr ⟨hg, le_trans h hms, hxe⟩⟩
      omega

/-- Witness for C6 at a concrete input: raising the threshold from 0 to 50
does not lengthen the result. -/
theorem claim_c6_witness :
    (fuzzy_top_matches zeroScorer zeroScorer "Alpha Bravo"
      (build_ofac_name_index [⟨"3", "ALPHA BRAVO CHARLIE"⟩]) 3 50).length ≤
    (fuzzy_top_matches zeroScorer zeroScorer "Alpha Bravo"
      (build_ofac_name_index [⟨"3", "ALPHA BRAVO CHARLIE"⟩]) 3 0).length :=
  claim_c6_threshold_monotone zeroScorer zeroScorer "Alpha Bravo"
    (build_ofac_name_index [⟨"3", "ALPHA BRAVO CHARLIE"⟩]) 3 0 50 (by decide)

/-! Score bounds (claim C7). -/

theorem pyInter_length_le {α : Type} [DecidableEq α] (A B : List α) :
    (pyInter A B).length ≤ A.length :=
  List.length_filter_le _ A

theorem pyInter_le_pyUnion {α : Type} [DecidableEq α] (A B : List α) :
    (pyInter A B).length ≤ (pyUnion A B).length := by
  unfold pyUnion
  rw [List.length_append]
  have := pyInter_length_le A B
  omega

theorem jaccard100_bounds (qset cset : List String) :
    0 ≤ jaccard100 qset cset ∧ jaccard100 qset cset ≤ 100 := by
  unfold jaccard100
  have hd : (0 : ℚ) < ((max 1 (pyUnion qset cset).length : Nat) : ℚ) := by
    have : 1 ≤ max 1 (pyUnion qset cset).length := le_max_left _ _
    exact_mod_cast Nat.lt_of_lt_of_le Nat.zero_lt_one this
  constructor
  · positivity
  · rw [div_le_iff₀ hd]
    have hle : (pyInter qset cset).length ≤ max 1 (pyUnion qset cset).length :=
      le_trans (pyInter_le_pyUnion qset cset) (le_max_right _ _)
    have : ((pyInter qset cset).length : ℚ) ≤ ((max 1 (pyUnion qset cset).length : Nat) : ℚ) := by
      exact_mod_cast hle
    nlinarith

theorem rawScore_bounds (s1fn s2fn : String → String → ℚ) (q : String)
    (qset : List String) (qEnt : Bool) (it : IndexedItem)
    (hs1 : ∀ a b, 0 ≤ s1fn a b ∧ s1fn a b ≤ 100)
    (hs2 : ∀ a b, 0 ≤ s2fn a b ∧ s2fn a b ≤ 100) :
    -8 ≤ rawScore s1fn s2fn q qset qEnt it ∧
      rawScore s1fn s2fn q qset qEnt it ≤ 103 := by
  unfold rawScore
  obtain ⟨h1a, h1b⟩ := hs1 q it.norm
  obtain ⟨h2a, h2b⟩ := hs2 q it.norm
  obtain ⟨h3a, h3b⟩ := jaccard100_bounds qset it.token_set
  constructor
  · split <;> split <;> nlinarith
  · split <;> split <;> nlinarith

theorem round1_nonneg {x : ℚ} (h : 0 ≤ x) : 0 ≤ round1 x := by
  unfold round1
  have h1 : (0 : ℤ) ≤ ⌊10 * x + 1 / 2⌋ := by
    rw [Int.le_floor]
    push_cast
    linarith
  positivity

theorem round1_le_103 {x : ℚ} (h : x ≤ 103) : round1 x ≤ 103 := by
  unfold round1
  have h2 : ((⌊10 * x + 1 / 2⌋ : ℤ) : ℚ) ≤ 10 * x + 1 / 2 := Int.floor_le _
  have h3 : ((⌊10 * x + 1 / 2⌋ : ℤ) : ℚ) < 1031 := by linarith
  have h4 : ⌊10 * x + 1 / 2⌋ < 1031 := by exact_mod_cast h3
  have h5 : ((⌊10 * x + 1 / 2⌋ : ℤ) : ℚ) ≤ 1030 := by
    have h6 : ⌊10 * x + 1 / 2⌋ ≤ 1030 := by omega
    exact_mod_cast h6
  rw [div_le_iff₀ (by norm_num : (0:ℚ) < 10)]
  linarith

/-- C7: the composite scorer never divides by zero — for any candidate
passing the overlap gate the token-set union has size at least 1 (indeed
at least 2), so the clamped Jaccard denominator equals the true union
size — and, given the documented `[0, 100]` range of the two external
string scorers and a nonnegative caller threshold, every score carried by
a returned match of either lookup lies in `[0, 103]`. -/
theorem claim_c7_score_range (s1fn s2fn : String → String → ℚ) (name : String)
    (index : OfacIndex) (top_k : Nat) (ms1 ms2 : ℚ)
    (hs1 : ∀ a b, 0 ≤ s1fn a b ∧ s1fn a b ≤ 100)
    (hs2 : ∀ a b, 0 ≤ s2fn a b ∧ s2fn a b ≤ 100)
    (hm1 : 0 ≤ ms1) (hm2 : 0 ≤ ms2) :
    (∀ (qset : List String) (it : IndexedItem),
      2 ≤ (pyInter qset it.token_set).length →
        1 ≤ (pyUnion qset it.token_set).length ∧
        max 1 (pyUnion qset it.token_set).length = (pyUnion qset it.token_set).length) ∧
    (∀ nm sc e, fuzzy_match s1fn s2fn name index ms2 = some (nm, sc, e) →
      0 ≤ sc ∧ sc ≤ 103) ∧
    (∀ x ∈ fuzzy_top_matches s1fn s2fn name index top_k ms1,
      0 ≤ x.2.1 ∧ x.2.1 ≤ 103) := by
  refine ⟨?_, ?_, ?_⟩
  · intro qset it hg
    have := pyInter_le_pyUnion qset it.token_set
    constructor
    · omega
    · omega
  · intro nm sc e h
    rcases fuzzy_match_some_inv h with ⟨-, -, hsc⟩ | ⟨-, b, hbf, hms, -, -, hsc⟩
    · rw [hsc]
      norm_num
    · obtain ⟨-, -, hprov⟩ := (bestFold_go s1fn s2fn _ _ _ index _ none).2 b hbf
      rcases hprov with hprov | ⟨cid, -, -, hb⟩
      · simp at hprov
      · have hbounds := rawScore_bounds s1fn s2fn (normalize_name name)
          (tokenize_name (normalize_name name)).dedup
          (looks_like_entity (tokenize_name (normalize_name name)))
          (index.items.getD cid defaultItem) hs1 hs2
        have hb1 : b.1 = candScore s1fn s2fn (normalize_name name)
            (tokenize_name (normalize_name name)).dedup
            (looks_like_entity (tokenize_name (normalize_name name))) index cid := by
          rw [hb]
        unfold candScore at hb1
        rw [hsc]
        constructor
        · exact round1_nonneg (le_trans hm2 hms)
        · exact round1_le_103 (by rw [hb1]; exact hbounds.2)
  · intro x hx
    obtain ⟨cid, -, -, hms, hxeq⟩ := mem_scoredFor.mp (mem_fuzzy_top_matches hx)
    have hbounds := rawScore_bounds s1fn s2fn (normalize_name name)
      (tokenize_name (normalize_name name)).dedup
      (looks_like_entity (tokenize_name (normalize_name name)))
      (index.items.getD cid defaultItem) hs1 hs2
    rw [hxeq]
    constructor
    · exact round1_nonneg (le_trans hm1 hms)
    · exact round1_le_103 hbounds.2

/-- Witness for C7 at a concrete input (zero scorers satisfy the `[0,100]`
range; thresholds 80 and 92 are the source defaults). -/
theorem claim_c7_witness :
    (∀ (qset : List String) (it : IndexedItem),
      2 ≤ (pyInter qset it.token_set).length →
        1 ≤ (pyUnion qset it.token_set).length ∧
        max 1 (pyUnion qset it.token_set).length = (pyUnion qset it.token_set).length) ∧
    (∀ nm sc e, fuzzy_match zeroScorer zeroScorer "Maduro"
        (build_ofac_name_index [⟨"1", "MADURO"⟩]) 92 = some (nm, sc, e) →
      0 ≤ sc ∧ sc ≤ 103) ∧
    (∀ x ∈ fuzzy_top_matches zeroScorer zeroScorer "Maduro"
        (build_ofac_name_index [⟨"1", "MADURO"⟩]) 10 80,
      0 ≤ x.2.1 ∧ x.2.1 ≤ 103) :=
  claim_c7_score_range zeroScorer zeroScorer "Maduro"
    (build_ofac_name_index [⟨"1", "MADURO"⟩]) 10 80 92
    (fun a b => ⟨by simp [zeroScorer], by simp [zeroScorer]⟩)
    (fun a b => ⟨by simp [zeroScorer], by simp [zeroScorer]⟩)
    (by decide) (by decide)

/-! Blocking versus brute force (claim C4). -/

theorem fuzzy_top_matches_front {s1fn s2fn : String → String → ℚ} {name : String}
    {index : OfacIndex} {top_k : Nat} {ms : ℚ}
    (h : fuzzy_top_matches s1fn s2fn name index top_k ms ≠ []) :
    ¬ (normalize_name name = "" ∨
        (tokenize_name (normalize_name name)).length < 2) := by
  intro hcond
  apply h
  simp only [fuzzy_top_matches]
  rw [if_pos hcond]

/-- Evaluation helper: the composite score under the zero scorers when the
candidate shares exactly 2 of 3 union tokens, contains the whole query
token set, and triggers no entity penalty: `0.15 · (100·2/3) + 3 = 13`. -/
theorem rawScore_zero_eval {q : String} {qset : List String} {qEnt : Bool}
    {it : IndexedItem} (h1 : (pyInter qset it.token_set).length = 2)
    (h2 : (pyUnion qset it.token_set).length = 3)
    (h3 : (qset.all (fun t => t ∈ it.token_set)) = true)
    (h4 : (!qEnt && it.is_entity) = false) :
    rawScore zeroScorer zeroScorer q qset qEnt it = 13 := by
  unfold rawScore jaccard100 zeroScorer
  rw [h1, h2, h3, h4]
  norm_num

theorem round1_thirteen : round1 13 = 13 := by
  unfold round1
  rw [show ⌊(10 : ℚ) * 13 + 1 / 2⌋ = 130 by norm_num [Int.floor_eq_iff]]
  norm_num

/-- Counterexample to C4: for the reference list `["AB CD EF"]` and the
query `"AB CD"` (both query tokens have length 2, so no posting list
exists and blocking returns no candidate — the pool trivially never
exceeds `maxPool`), `fuzzy_top_matches` returns nothing while the
brute-force full scan with the same gate, scoring rule and threshold
returns the entry: its overlap is 2 and its score is 13 ≥ 0 for any
scorers valued 0. Blocking drops a qualifying candidate. -/
theorem claim_c4_counterexample :
    fuzzy_top_matches zeroScorer zeroScorer "AB CD"
      (build_ofac_name_index [⟨"2", "AB CD EF"⟩]) 10 0 = [] ∧
    (_candidate_ids_for_query (tokenize_name (normalize_name "AB CD"))
      (build_ofac_name_index [⟨"2", "AB CD EF"⟩]) 5000).length ≤ 5000 ∧
    ("AB CD EF", 13, ⟨"2", "AB CD EF"⟩) ∈
      bruteForceScan zeroScorer zeroScorer "AB CD"
        (build_ofac_name_index [⟨"2", "AB CD EF"⟩]) 0 := by
  refine ⟨by decide, by decide, ?_⟩
  simp only [bruteForceScan]
  rw [if_neg (by decide)]
  rw [show (build_ofac_name_index [⟨"2", "AB CD EF"⟩]).items =
    [⟨"AB CD EF", ["AB", "CD", "EF"], ["AB", "CD", "EF"], false,
      ⟨"2", "AB CD EF"⟩⟩] from by decide]
  rw [List.mem_filterMap]
  refine ⟨⟨"AB CD EF", ["AB", "CD", "EF"], ["AB", "CD", "EF"], false,
    ⟨"2", "AB CD EF"⟩⟩, by simp, ?_⟩
  dsimp only
  rw [if_neg (by decide)]
  rw [rawScore_zero_eval (by decide) (by decide) (by decide) (by decide)]
  rw [if_pos (by norm_num), round1_thirteen]

/-- C4 amended: blocking is sound but not complete with respect to the
brute-force full scan: every `(name, score, entry)` triple returned by
`fuzzy_top_matches` also appears in the brute-force scan over all indexed
items with the same overlap gate, composite scoring rule and threshold
(before truncation); the converse fails — see the counterexample, where
blocking drops a qualifying candidate even though the candidate pool
never exceeds `maxPool`. -/
theorem claim_c4_blocking_subset (s1fn s2fn : String → String → ℚ)
    (name : String) (index : OfacIndex) (top_k : Nat) (ms : ℚ) :
    ∀ x ∈ fuzzy_top_matches s1fn s2fn name index top_k ms,
      x ∈ bruteForceScan s1fn s2fn name index ms := by
  intro x hx
  have hfront := fuzzy_top_matches_front (List.ne_nil_of_mem hx)
  obtain ⟨cid, -, hg, hms, hxeq⟩ := mem_scoredFor.mp (mem_fuzzy_top_matches hx)
  simp only [bruteForceScan]
  rw [if_neg hfront, List.mem_filterMap]
  refine ⟨index.items.getD cid defaultItem, item_mem_of_gateOK hg, ?_⟩
  dsimp only
  rw [if_neg (by unfold gateOK at hg; omega)]
  unfold candScore at hms hxeq
  rw [if_pos hms, hxeq]

/-- Evaluation helper: the scored-candidate list for the query
`"Alpha Bravo"` on the index of `"ALPHA BRAVO CHARLIE"` under the zero
scorers and threshold 0 is the single triple with score 13. -/
theorem scoredFor_alpha_eval :
    scoredFor zeroScorer zeroScorer (normalize_name "Alpha Bravo")
      (tokenize_name (normalize_name "Alpha Bravo")).dedup
      (looks_like_entity (tokenize_name (normalize_name "Alpha Bravo")))
      (build_ofac_name_index [⟨"3", "ALPHA BRAVO CHARLIE"⟩])
      (_candidate_ids_for_query (tokenize_name (normalize_name "Alpha Bravo"))
        (build_ofac_name_index [⟨"3", "ALPHA BRAVO CHARLIE"⟩]) 5000) 0 =
      [("ALPHA BRAVO CHARLIE", 13, ⟨"3", "ALPHA BRAVO CHARLIE"⟩)] := by
  rw [show _candidate_ids_for_query (tokenize_name (normalize_name "Alpha Bravo"))
    (build_ofac_name_index [⟨"3", "ALPHA BRAVO CHARLIE"⟩]) 5000 = [0] from by decide]
  unfold scoredFor
  rw [List.filterMap_cons, List.filterMap_nil]
  unfold scoredBody
  rw [show (build_ofac_name_index [⟨"3", "ALPHA BRAVO CHARLIE"⟩]).items.getD 0
      defaultItem =
    ⟨"ALPHA BRAVO CHARLIE", ["ALPHA", "BRAVO", "CHARLIE"],
      ["ALPHA", "BRAVO", "CHARLIE"], false, ⟨"3", "ALPHA BRAVO CHARLIE"⟩⟩
    from by decide]
  dsimp only
  rw [if_neg (by decide), if_neg (by decide)]
  rw [rawScore_zero_eval (by decide) (by decide) (by decide) (by decide)]
  rw [if_pos (by norm_num), round1_thirteen]

/-- Evaluation helper: on the index of `"ALPHA BRAVO CHARLIE"` the query
`"Alpha Bravo"` blocks to the single candidate 0, which survives the gate
and scores 13 under the zero scorers, so for any `topK` the output is
that single triple. -/
theorem fuzzy_top_matches_alpha_eval (top_k : Nat) :
    fuzzy_top_matches zeroScorer zeroScorer "Alpha Bravo"
      (build_ofac_name_index [⟨"3", "ALPHA BRAVO CHARLIE"⟩]) top_k 0 =
      [("ALPHA BRAVO CHARLIE", 13, ⟨"3", "ALPHA BRAVO CHARLIE"⟩)] := by
  simp only [fuzzy_top_matches]
  rw [if_neg (by decide), if_neg (by decide), scoredFor_alpha_eval]
  rw [List.perm_singleton.mp (List.perm_insertionSort matchRel _)]
  exact List.take_of_length_le (by simp [Nat.le_max_left])

/-- Witness for the amended C4 at a concrete input: the triple returned by
`fuzzy_top_matches` for `"Alpha Bravo"` also appears in the brute-force
scan. -/
theorem claim_c4_witness :
    ("ALPHA BRAVO CHARLIE", 13, (⟨"3", "ALPHA BRAVO CHARLIE"⟩ : OfacEntry)) ∈
      bruteForceScan zeroScorer zeroScorer "Alpha Bravo"
        (build_ofac_name_index [⟨"3", "ALPHA BRAVO CHARLIE"⟩]) 0 :=
  claim_c4_blocking_subset zeroScorer zeroScorer "Alpha Bravo"
    (build_ofac_name_index [⟨"3", "ALPHA BRAVO CHARLIE"⟩]) 10 0
    ("ALPHA BRAVO CHARLIE", 13, ⟨"3", "ALPHA BRAVO CHARLIE"⟩)
    (by rw [fuzzy_top_matches_alpha_eval 10]; simp)

/-! Selection and ranking (claim C5). -/

instance matchRel.isTrans : IsTrans (String × ℚ × OfacEntry) matchRel := by
  constructor
  rintro a b c (h1 | ⟨h1, h1'⟩) (h2 | ⟨h2, h2'⟩)
  · exact Or.inl (lt_trans h2 h1)
  · exact Or.inl (h2 ▸ h1)
  · exact Or.inl (by rw [h1]; exact h2)
  · exact Or.inr ⟨h1.trans h2, h1'.trans h2'⟩

instance matchRel.isTotal : IsTotal (String × ℚ × OfacEntry) matchRel := by
  constructor
  intro a b
  rcases lt_trichotomy a.2.1 b.2.1 with h | h | h
  · exact Or.inr (Or.inl h)
  · rcases le_total a.1 b.1 with hle | hle
    · exact Or.inl (Or.inr ⟨h, hle⟩)
    · exact Or.inr (Or.inr ⟨h.symm, hle⟩)
  · exact Or.inl (Or.inl h)

theorem dedup_length_le {l : List String} : l.dedup.length ≤ l.length :=
  l.dedup_sublist.length_le

theorem gate_impossible_of_small {qset : List String} {index : OfacIndex}
    {cid : Nat} (hlen : qset.length ≤ 1) : ¬ gateOK qset index cid := by
  unfold gateOK
  have := pyInter_length_le qset (index.items.getD cid defaultItem).token_set
  omega

/-- Inversion of a failed `fuzzy_match`: whatever the reason for returning
`None`, every candidate surviving blocking and the overlap gate scores
strictly below `min_score`. -/
theorem fuzzy_match_none_inv {s1fn s2fn : String → String → ℚ} {name : String}
    {index : OfacIndex} {ms : ℚ}
    (h : fuzzy_match s1fn s2fn name index ms = none) :
    ∀ cid ∈ _candidate_ids_for_query (tokenize_name (normalize_name name)) index 5000,
      gateOK (tokenize_name (normalize_name name)).dedup index cid →
        candScore s1fn s2fn (normalize_name name)
          (tokenize_name (normalize_name name)).dedup
          (looks_like_entity (tokenize_name (normalize_name name))) index cid < ms := by
  simp only [fuzzy_match] at h
  split at h
  · rename_i hq
    intro cid _ hg
    exfalso
    refine gate_impossible_of_small ?_ hg
    rw [show (tokenize_name (normalize_name name)).dedup = [] by rw [hq]; decide]
    decide
  · split at h
    · exact absurd h (by simp)
    · split at h
      · rename_i hlen
        intro cid _ hg
        exfalso
        refine gate_impossible_of_small ?_ hg
        have := dedup_length_le (l := tokenize_name (normalize_name name))
        omega
      · split at h
        · rename_i hc
          intro cid hcid _
          rw [hc] at hcid
          simp at hcid
        · split at h
          · rename_i heq
            intro cid hcid hg
            exact absurd hg (((bestFold_go s1fn s2fn _ _ _ index _ none).1 heq).2 cid hcid)
          · rename_i score nm0 e0 heq2
            split at h
            · exact absurd h (by simp)
            · rename_i hms
              intro cid hcid hg
              obtain ⟨-, hmax, -⟩ :=
                (bestFold_go s1fn s2fn _ _ _ index _ none).2 _ heq2
              exact lt_of_le_of_lt (hmax cid hcid hg) (not_le.mp hms)

theorem qset_small_of_front {name : String}
    (hcond : normalize_name name = "" ∨
      (tokenize_name (normalize_name name)).length < 2) :
    (tokenize_name (normalize_name name)).dedup.length ≤ 1 := by
  rcases hcond with hq | hql
  · rw [show (tokenize_name (normalize_name name)).dedup = [] by rw [hq]; decide]
    simp
  · have := dedup_length_le (l := tokenize_name (normalize_name name))
    omega

/-- When the query token set has at most one element, no candidate can
pass the two-token overlap gate, so the scored-candidate list is empty. -/
theorem scoredFor_nil_of_small {s1fn s2fn : String → String → ℚ} {q : String}
    {qset : List String} {qEnt : Bool} {index : OfacIndex} {cand_ids : List Nat}
    {ms : ℚ} (hlen : qset.length ≤ 1) :
    scoredFor s1fn s2fn q qset qEnt index cand_ids ms = [] := by
  rw [List.eq_nil_iff_forall_not_mem]
  intro x hx
  obtain ⟨cid, -, hg, -, -⟩ := mem_scoredFor.mp hx
  exact gate_impossible_of_small hlen hg

/-- Counterexample to C5: with `topK = 0` the caller requests zero
results, but `fuzzy_top_matches` truncates to `max(1, topK)` and still
returns one result. -/
theorem claim_c5_counterexample :
    (fuzzy_top_matches zeroScorer zeroScorer "Alpha Bravo"
      (build_ofac_name_index [⟨"3", "ALPHA BRAVO CHARLIE"⟩]) 0 0).length = 1 := by
  rw [fuzzy_top_matches_alpha_eval 0]
  rfl

/-- C5 amended: for queries without an exact canonical match,
`fuzzy_match` returns the single highest-scoring candidate surviving
blocking and the overlap gate, iff its (unrounded) score reaches
`minScore` (returned rounded); and `fuzzy_top_matches` returns exactly
the surviving candidates scoring at least its threshold, sorted by
descending rounded score with ties broken by ascending canonical name,
truncated to `max(1, topK)` — not to `topK` itself, see the
counterexample at `topK = 0`. Truncation keeps the top of the ranking:
the output has exactly `min (max 1 topK) |scored|` elements, and it
extends by some `rest` to a sorted permutation of the whole scored list,
so every dropped survivor ranks no higher than every kept one. -/
theorem claim_c5_selection (s1fn s2fn : String → String → ℚ) (name : String)
    (index : OfacIndex) (top_k : Nat) (ms : ℚ) :
    (index.map.lookup (normalize_name name) = none →
      ∀ nm sc e, fuzzy_match s1fn s2fn name index ms = some (nm, sc, e) →
        ∃ cid ∈ _candidate_ids_for_query (tokenize_name (normalize_name name))
            index 5000,
          gateOK (tokenize_name (normalize_name name)).dedup index cid ∧
          ms ≤ candScore s1fn s2fn (normalize_name name)
            (tokenize_name (normalize_name name)).dedup
            (looks_like_entity (tokenize_name (normalize_name name))) index cid ∧
          nm = (index.items.getD cid defaultItem).norm ∧
          e = (index.items.getD cid defaultItem).entry ∧
          sc = round1 (candScore s1fn s2fn (normalize_name name)
            (tokenize_name (normalize_name name)).dedup
            (looks_like_entity (tokenize_name (normalize_name name))) index cid) ∧
          ∀ cid2 ∈ _candidate_ids_for_query (tokenize_name (normalize_name name))
              index 5000,
            gateOK (tokenize_name (normalize_name name)).dedup index cid2 →
              candScore s1fn s2fn (normalize_name name)
                (tokenize_name (normalize_name name)).dedup
                (looks_like_entity (tokenize_name (normalize_name name))) index cid2 ≤
              candScore s1fn s2fn (normalize_name name)
                (tokenize_name (normalize_name name)).dedup
                (looks_like_entity (tokenize_name (normalize_name name))) index cid) ∧
    (fuzzy_match s1fn s2fn name index ms = none →
      ∀ cid ∈ _candidate_ids_for_query (tokenize_name (normalize_name name)) index 5000,
        gateOK (tokenize_name (normalize_name name)).dedup index cid →
          candScore s1fn s2fn (normalize_name name)
            (tokenize_name (normalize_name name)).dedup
            (looks_like_entity (tokenize_name (normalize_name name))) index cid < ms) ∧
    List.Pairwise matchRel (fuzzy_top_matches s1fn s2fn name index top_k ms) ∧
    (fuzzy_top_matches s1fn s2fn name index top_k ms).length ≤ max 1 top_k ∧
    (fuzzy_top_matches s1fn s2fn name index top_k ms).length =
      min (max 1 top_k) ((scoredFor s1fn s2fn (normalize_name name)
        (tokenize_name (normalize_name name)).dedup
        (looks_like_entity (tokenize_name (normalize_name name))) index
        (_candidate_ids_for_query (tokenize_name (normalize_name name)) index 5000)
        ms).length) ∧
    (∃ rest : List (String × ℚ × OfacEntry),
      (fuzzy_top_matches s1fn s2fn name index top_k ms ++ rest).Perm
        (scoredFor s1fn s2fn (normalize_name name)
          (tokenize_name (normalize_name name)).dedup
          (looks_like_entity (tokenize_name (normalize_name name))) index
          (_candidate_ids_for_query (tokenize_name (normalize_name name)) index 5000)
          ms) ∧
      List.Pairwise matchRel
        (fuzzy_top_matches s1fn s2fn name index top_k ms ++ rest)) ∧
    (∀ x ∈ fuzzy_top_matches s1fn s2fn name index top_k ms,
      x ∈ scoredFor s1fn s2fn (normalize_name name)
        (tokenize_name (normalize_name name)).dedup
        (looks_like_entity (tokenize_name (normalize_name name))) index
        (_candidate_ids_for_query (tokenize_name (normalize_name name)) index 5000) ms) ∧
    ((scoredFor s1fn s2fn (normalize_name name)
        (tokenize_name (normalize_name name)).dedup
        (looks_like_entity (tokenize_name (normalize_name name))) index
        (_candidate_ids_for_query (tokenize_name (normalize_name name)) index 5000)
        ms).length ≤ max 1 top_k →
      ∀ x ∈ scoredFor s1fn s2fn (normalize_name name)
          (tokenize_name (normalize_name name)).dedup
          (looks_like_entity (tokenize_name (normalize_name name))) index
          (_candidate_ids_for_query (tokenize_name (normalize_name name)) index 5000) ms,
        x ∈ fuzzy_top_matches s1fn s2fn name index top_k ms) ∧
    (∀ x, x ∈ scoredFor s1fn s2fn (normalize_name name)
        (tokenize_name (normalize_name name)).dedup
        (looks_like_entity (tokenize_name (normalize_name name))) index
        (_candidate_ids_for_query (tokenize_name (normalize_name name)) index 5000) ms ↔
      ∃ cid ∈ _candidate_ids_for_query (tokenize_name (normalize_name name)) index 5000,
        gateOK (tokenize_name (normalize_name name)).dedup index cid ∧
        ms ≤ candScore s1fn s2fn (normalize_name name)
          (tokenize_name (normalize_name name)).dedup
          (looks_like_entity (tokenize_name (normalize_name name))) index cid ∧
        x = ((index.items.getD cid defaultItem).norm,
          round1 (candScore s1fn s2fn (normalize_name name)
            (tokenize_name (normalize_name name)).dedup
            (looks_like_entity (tokenize_name (normalize_name name))) index cid),
          (index.items.getD cid defaultItem).entry)) := by
  refine ⟨?_, fuzzy_match_none_inv, ?_, ?_, ?_, ?_,
    fun x hx => mem_fuzzy_top_matches hx, ?_, fun x => mem_scoredFor⟩
  · intro hlk nm sc e h
    rcases fuzzy_match_some_inv h with ⟨hsome, -, -⟩ | ⟨-, b, hbf, hms, hnm, he, hsc⟩
    · rw [hlk] at hsome
      exact absurd hsome (by simp)
    · obtain ⟨-, hmax, hprov⟩ := (bestFold_go s1fn s2fn _ _ _ index _ none).2 b hbf
      rcases hprov with hprov | ⟨cid, hcid, hg, hb⟩
      · simp at hprov
      · refine ⟨cid, hcid, hg, ?_, ?_, ?_, ?_, ?_⟩
        · rw [← show b.1 = candScore s1fn s2fn (normalize_name name)
              (tokenize_name (normalize_name name)).dedup
              (looks_like_entity (tokenize_name (normalize_name name))) index cid
            by rw [hb]]
          exact hms
        · rw [hnm, hb]
        · rw [he, hb]
        · rw [hsc, show b.1 = candScore s1fn s2fn (normalize_name name)
              (tokenize_name (normalize_name name)).dedup
              (looks_like_entity (tokenize_name (normalize_name name))) index cid
            by rw [hb]]
        · intro cid2 hcid2 hg2
          rw [← show b.1 = candScore s1fn s2fn (normalize_name name)
              (tokenize_name (normalize_name name)).dedup
              (looks_like_entity (tokenize_name (normalize_name name))) index cid
            by rw [hb]]
          exact hmax cid2 hcid2 hg2
  · simp only [fuzzy_top_matches]
    split
    · simp
    · split
      · simp
      · exact List.Pairwise.sublist (List.take_sublist _ _)
          (List.sorted_insertionSort matchRel _)
  · simp only [fuzzy_top_matches]
    split
    · simp
    · split
      · simp
      · rw [List.length_take]
        exact min_le_left _ _
  · simp only [fuzzy_top_matches]
    split
    · rename_i hcond
      rw [scoredFor_nil_of_small (qset_small_of_front hcond)]
      simp
    · split
      · rename_i hc
        rw [hc]
        simp [scoredFor]
      · rw [List.length_take, (List.perm_insertionSort matchRel _).length_eq]
  · simp only [fuzzy_top_matches]
    split
    · rename_i hcond
      refine ⟨[], ?_, by simp⟩
      rw [scoredFor_nil_of_small (qset_small_of_front hcond)]
      simp
    · split
      · rename_i hc
        refine ⟨[], ?_, by simp⟩
        rw [hc]
        simp [scoredFor]
      · refine ⟨(List.insertionSort matchRel (scoredFor s1fn s2fn
            (normalize_name name) (tokenize_name (normalize_name name)).dedup
            (looks_like_entity (tokenize_name (normalize_name name))) index
            (_candidate_ids_for_query (tokenize_name (normalize_name name))
              index 5000) ms)).drop (max 1 top_k), ?_, ?_⟩
        · rw [List.take_append_drop]
          exact List.perm_insertionSort matchRel _
        · rw [List.take_append_drop]
          exact List.sorted_insertionSort matchRel _
  · intro hlen x hx
    simp only [fuzzy_top_matches]
    split
    · rename_i hcond
      exfalso
      obtain ⟨cid, -, hg, -, -⟩ := mem_scoredFor.mp hx
      refine gate_impossible_of_small ?_ hg
      rcases hcond with hq | hql
      · rw [show (tokenize_name (normalize_name name)).dedup = [] by rw [hq]; decide]
        decide
      · have := dedup_length_le (l := tokenize_name (normalize_name name))
        omega
    · split
      · rename_i hc
        exfalso
        obtain ⟨cid, hcid, -, -, -⟩ := mem_scoredFor.mp hx
        rw [hc] at hcid
        simp at hcid
      · rw [List.take_of_length_le
          (by rw [(List.perm_insertionSort matchRel _).length_eq]; exact hlen)]
        simpa using hx

/-- Witness for the amended C5 at a concrete input: the no-truncation
completeness direction yields the single scored triple as a member of
the output. -/
theorem claim_c5_witness :
    ("ALPHA BRAVO CHARLIE", 13, (⟨"3", "ALPHA BRAVO CHARLIE"⟩ : OfacEntry)) ∈
      fuzzy_top_matches zeroScorer zeroScorer "Alpha Bravo"
        (build_ofac_name_index [⟨"3", "ALPHA BRAVO CHARLIE"⟩]) 3 0 :=
  (claim_c5_selection zeroScorer zeroScorer "Alpha Bravo"
    (build_ofac_name_index [⟨"3", "ALPHA BRAVO CHARLIE"⟩]) 3 0).2.2.2.2.2.2.2.1
    (by rw [scoredFor_alpha_eval]; simp)
    ("ALPHA BRAVO CHARLIE", 13, ⟨"3", "ALPHA BRAVO CHARLIE"⟩)
    (by rw [scoredFor_alpha_eval]; simp)

end OfacSpec
